import Mathlib

/-!
Verification development for the horton-part propars solvers.

The numerical core of the repository (src/horton_part/lisa.py, gisa.py,
mbis.py) is shallowly embedded here over the rationals.  Arrays become
functions out of `Fin m` (grid points) and `Fin n` (shells) or `List ℚ`
(the interleaved MBIS parameter vector).  External numeric primitives that
the code calls but that are not part of the repository - `np.pi`, `np.exp`,
`np.sqrt`, the float power `x ** 1.5`, `scipy.linalg.solve`,
`scipy.linalg.eigvals` and the basis-function evaluator
`BasisFuncHelper.compute_proshell_dens` (the `basis` module is not under
src/) - enter as explicit parameters, so every embedded function stays
computable and can be evaluated on concrete inputs.  Exceptions raised by
the Python code are modelled with `Except`.
-/

namespace HortonPart

/-- The float literal 1e-100: the floor used by `np.clip(..., 1e-100, np.inf)`
and the lower clip of the radii. -/
def qsmall : ℚ := 1 / 10 ^ 100

/-- The float literal 1e10: the upper clip of the radii in
`np.clip(r, 1e-100, 1e10)`. -/
def rbig : ℚ := 10 ^ 10

/-- The float literal 1e100: initial value of the convergence measure
(`change = 1e100`) before any iteration has run. -/
def big100 : ℚ := 10 ^ 100

/-- The float literal -1e-10: the non-negativity tolerance used by the
checks `np.all(propars >= -1e-10)`. -/
def negTol : ℚ := -(1 / 10 ^ 10)

/-- The float literal -1e-5: the tolerance of the shell-density check
`np.all(shells >= -1e-5)` in the Newton solver. -/
def negTol5 : ℚ := -(1 / 10 ^ 5)

/-- `np.isclose(a, b, atol, rtol)`, which holds when
`|a - b| <= atol + rtol * |b|`. -/
def iscloseB (a b atol rtol : ℚ) : Bool := decide (|a - b| ≤ atol + rtol * |b|)

/-- The exceptions raised by the solver family. -/
inductive PErr where
  | nonConvergence
  | negative
  | singular
  | assertFail
  | typeErr
  deriving DecidableEq

/-- Shared input data of the GISA/LISA per-atom solvers: `np.pi` and
`np.sqrt` as explicit parameters, the radial grid (`points`, `weights`),
the unit-amplitude shell densities `bsF k` evaluated on the clipped radii
(the values of `bs_helper.compute_proshell_dens(1.0, alphas[k], r)`; the
basis module is external to src/ and, per the spec, `shellDensity` is
linear in its amplitude argument, as the variants that precompute
`bs_funcs` and form `propars[:, None] * bs_funcs` confirm), the target
spherical-average density `rho` and the inner `threshold`. -/
structure Ctx (n m : ℕ) where
  pi : ℚ
  sqrtF : ℚ → ℚ
  points : Fin m → ℚ
  weights : Fin m → ℚ
  bsF : Fin n → Fin m → ℚ
  rho : Fin m → ℚ
  threshold : ℚ

variable {n m : ℕ}

/-- The clipped radii `r = np.clip(rgrid.points, 1e-100, 1e10)`. -/
def rc (C : Ctx n m) (p : Fin m) : ℚ := min (max (C.points p) qsmall) rbig

/-- The radial weight factor `4 * np.pi * r**2` (on the clipped radii). -/
def wf (C : Ctx n m) (p : Fin m) : ℚ := 4 * C.pi * rc C p ^ 2

/-- `rgrid.integrate(f)`: quadrature with one integrand
(spec: `integrate(weightFactor, *integrands)` sums the product of all
arguments with the quadrature weights). -/
def rint1 (C : Ctx n m) (f : Fin m → ℚ) : ℚ := ∑ p, f p * C.weights p

/-- `rgrid.integrate(f, g)`: quadrature with two integrands. -/
def rint2 (C : Ctx n m) (f g : Fin m → ℚ) : ℚ := ∑ p, f p * g p * C.weights p

/-- `rgrid.integrate(f, g, h)`: quadrature with three integrands. -/
def rint3 (C : Ctx n m) (f g h : Fin m → ℚ) : ℚ :=
  ∑ p, f p * g p * h p * C.weights p

/-- Sum of a parameter vector, `np.sum(propars)`. -/
def sumv (f : Fin n → ℚ) : ℚ := ∑ k, f k

/-- The integrated target population `N_a = rgrid.integrate(4*pi*r**2, rho)`. -/
def popInt (C : Ctx n m) : ℚ := rint2 C (wf C) C.rho

/-- The unclipped pro-atom density `pro = terms.sum(axis=0)` with
`terms[k] = compute_proshell_dens(propars[k], alphas[k], r)
          = propars[k] * bsF k`. -/
def proRaw (C : Ctx n m) (ps : Fin n → ℚ) (p : Fin m) : ℚ :=
  ∑ k, ps k * C.bsF k p

/-- The clipped pro-atom density `pro = np.clip(pro, 1e-100, np.inf)`. -/
def clipPro (C : Ctx n m) (ps : Fin n → ℚ) (p : Fin m) : ℚ :=
  max (proRaw C ps p) qsmall

/-- One self-consistent update: `terms *= rho / pro` followed by
`propars[k] = rgrid.integrate(4*np.pi*r**2, terms[k])`. -/
def scUpd (C : Ctx n m) (ps : Fin n → ℚ) (k : Fin n) : ℚ :=
  rint2 C (wf C) (fun p => ps k * C.bsF k p * C.rho p / clipPro C ps p)

/-- The convergence measure
`change = np.sqrt(rgrid.integrate(4*np.pi*r**2, error, error))` with
`error = oldpro - pro`. -/
def changeQ (C : Ctx n m) (oldpro pro : Fin m → ℚ) : ℚ :=
  C.sqrtF (rint3 C (wf C) (fun p => oldpro p - pro p) (fun p => oldpro p - pro p))

/-- `change` as the loop computes it: `1e100` before the first iteration
(`oldpro is None`), otherwise the distance between the stored and the
current pro-atom density. -/
def changeOf (C : Ctx n m) (oldpro : Option (Fin m → ℚ)) (pro : Fin m → ℚ) : ℚ :=
  oldpro.elim big100 (fun op => changeQ C op pro)

/-- The loop of `opt_propars_fixed_points_sc` (lisa.py).  Per iteration:
negative shell densities raise, the pro-atom density is clipped, the
parameters are reassigned by the SC update, and the loop returns the
updated parameters once `change < threshold`.  `fuel` counts the loop
iterations that remain; exhausting it is the `raise RuntimeError` after
the `for` loop. -/
def scRun (C : Ctx n m) : ℕ → (Fin n → ℚ) → Option (Fin m → ℚ) →
    Except PErr (Fin n → ℚ)
  | 0, _, _ => .error .nonConvergence
  | fuel + 1, ps, oldpro =>
    if ¬ ∀ k p, 0 ≤ ps k * C.bsF k p then .error .negative
    else
      let proC := clipPro C ps
      let newPs := scUpd C ps
      let change := changeOf C oldpro proC
      if change < C.threshold then .ok newPs
      else scRun C fuel newPs (some proC)

/-- `opt_propars_fixed_points_sc` with its iteration cap `range(int(1e10))`. -/
def opt_propars_fixed_points_sc (C : Ctx n m) (ps : Fin n → ℚ) :
    Except PErr (Fin n → ℚ) :=
  scRun C (10 ^ 10) ps none

/-- Boolean trace predicate mirroring `scRun`: at every executed iteration
(up to the returning one) the unclipped pro-atom density already lies
above the clip floor `1e-100`, so the clip is the identity there. -/
def scOkB (C : Ctx n m) : ℕ → (Fin n → ℚ) → Option (Fin m → ℚ) → Bool
  | 0, _, _ => true
  | fuel + 1, ps, oldpro =>
    if ¬ ∀ k p, 0 ≤ ps k * C.bsF k p then true
    else
      decide (∀ p, qsmall ≤ proRaw C ps p) &&
      (let proC := clipPro C ps
       let newPs := scUpd C ps
       let change := changeOf C oldpro proC
       if change < C.threshold then true
       else scOkB C fuel newPs (some proC))

/-- One damped iteration of `opt_propars_fixed_points_sc_damping`: the SC
update followed by `propars = propars + 0.9 * (-propars + oldprapars)`,
where `oldprapars` is the copy of the parameters taken once before the
loop (it is never reassigned inside the loop). -/
def dampStep (C : Ctx n m) (p0 ps : Fin n → ℚ) (k : Fin n) : ℚ :=
  scUpd C ps k + 9 / 10 * (-(scUpd C ps k) + p0 k)

/-- The loop of `opt_propars_fixed_points_sc_damping` (lisa.py): same SC
update, then the damping blend, then the convergence test; no negativity
check; exhaustion raises. -/
def dampRun (C : Ctx n m) (p0 : Fin n → ℚ) : ℕ → (Fin n → ℚ) →
    Option (Fin m → ℚ) → Except PErr (Fin n → ℚ)
  | 0, _, _ => .error .nonConvergence
  | fuel + 1, ps, oldpro =>
    let proC := clipPro C ps
    let newPs := dampStep C p0 ps
    let change := changeOf C oldpro proC
    if change < C.threshold then .ok newPs
    else dampRun C p0 fuel newPs (some proC)

/-- `opt_propars_fixed_points_sc_damping` with cap `range(int(1e10))`. -/
def opt_propars_fixed_points_sc_damping (C : Ctx n m) (ps : Fin n → ℚ) :
    Except PErr (Fin n → ℚ) :=
  dampRun C ps (10 ^ 10) ps none

/-- The loop of `opt_propars_fixed_points_plus_lisa1` (lisa.py): the plain
SC update without a negativity check, cap 1000.  On exhaustion the source
calls `opt_propars_minimization_fast(rho, oldpropars, rgrid, alphas,
threshold)` - one positional argument short of that function's signature
`(bs_helper, rho, propars, rgrid, alphas, threshold)` - so the fallback
call raises a `TypeError` before any fallback optimization runs; the
exhaustion case is therefore modelled as `.error .typeErr`. -/
def plusLisa1Run (C : Ctx n m) : ℕ → (Fin n → ℚ) → Option (Fin m → ℚ) →
    Except PErr (Fin n → ℚ)
  | 0, _, _ => .error .typeErr
  | fuel + 1, ps, oldpro =>
    let proC := clipPro C ps
    let newPs := scUpd C ps
    let change := changeOf C oldpro proC
    if change < C.threshold then .ok newPs
    else plusLisa1Run C fuel newPs (some proC)

/-- `opt_propars_fixed_points_plus_lisa1` with its cap `range(1000)`. -/
def opt_propars_fixed_points_plus_lisa1 (C : Ctx n m) (ps : Fin n → ℚ) :
    Except PErr (Fin n → ℚ) :=
  plusLisa1Run C 1000 ps none

/-! ### The Newton solver `opt_propars_fixed_points_newton` (lisa.py) -/

/-- `int_weights = 4 * np.pi * r**2 * weights`. -/
def intW (C : Ctx n m) (p : Fin m) : ℚ := wf C p * C.weights p

/-- The Newton matrix
`grad = np.einsum("kp, jp, p->kj", integrand / pro, bs_funcs, int_weights)`
with `integrand = bs_funcs * rho / pro` and `pro` clipped. -/
def newtonGrad (C : Ctx n m) (ps : Fin n → ℚ) (k j : Fin n) : ℚ :=
  ∑ p, C.bsF k p * C.rho p / clipPro C ps p / clipPro C ps p * C.bsF j p * intW C p

/-- The Newton residual `h = 1 - np.einsum("kp,p->k", integrand, int_weights)`. -/
def newtonH (C : Ctx n m) (ps : Fin n → ℚ) (k : Fin n) : ℚ :=
  1 - ∑ p, C.bsF k p * C.rho p / clipPro C ps p * intW C p

/-- The loop of `opt_propars_fixed_points_newton` (lisa.py).  `solveLin`
models `scipy.linalg.solve`; `none` is the `LinAlgError` raised on a
singular matrix, which the source does not catch.  The loop checks the
shell densities against `-1e-5` and the pro-atom density against `-1e-10`,
returns the current parameters on convergence, otherwise takes a Newton
step `propars += solve(grad, -h)` and raises if the stepped parameters
fall below `-1e-10`. -/
def newtonRun (C : Ctx n m)
    (solveLin : (Fin n → Fin n → ℚ) → (Fin n → ℚ) → Option (Fin n → ℚ)) :
    ℕ → (Fin n → ℚ) → Option (Fin m → ℚ) → Except PErr (Fin n → ℚ)
  | 0, _, _ => .error .nonConvergence
  | fuel + 1, ps, oldpro =>
    if ¬ ∀ k p, negTol5 ≤ ps k * C.bsF k p then .error .negative
    else if ¬ ∀ p, negTol ≤ proRaw C ps p then .error .negative
    else
      let proC := clipPro C ps
      let change := changeOf C oldpro proC
      if change < C.threshold then .ok ps
      else
        match solveLin (newtonGrad C ps) (fun k => -(newtonH C ps k)) with
        | none => .error .singular
        | some delta =>
          let ps2 := fun k => ps k + delta k
          if ¬ ∀ k, negTol ≤ ps2 k then .error .negative
          else newtonRun C solveLin fuel ps2 (some proC)

/-- `opt_propars_fixed_points_newton` with its cap `range(1000)`. -/
def opt_propars_fixed_points_newton (C : Ctx n m)
    (solveLin : (Fin n → Fin n → ℚ) → (Fin n → ℚ) → Option (Fin n → ℚ))
    (ps : Fin n → ℚ) : Except PErr (Fin n → ℚ) :=
  newtonRun C solveLin 1000 ps none

/-! ### The MBIS inner solver `_opt_mbis_propars` (mbis.py).
MBIS parameters are the interleaved list `[N_0, S_0, N_1, S_1, ...]` of
shell populations and widths, mutated by the inner loop; the radii are
not clipped in mbis.py. -/

/-- `noble = np.array([2, 10, 18, 36, 54, 86, 118])`. -/
def nobleList : List ℕ := [2, 10, 18, 36, 54, 86, 118]

/-- `_get_nshell`: `noble.searchsorted(number) + 1`; `searchsorted` (left
side) on a sorted array counts the elements strictly below `number`. -/
def get_nshell (number : ℕ) : ℕ :=
  nobleList.countP (fun x => decide (x < number)) + 1

/-- `nel_in_shell = np.array([2.0, 8.0, 8.0, 18.0, 18.0, 32.0, 32.0])`. -/
def nelInShell : List ℚ := [2, 8, 8, 18, 18, 32, 32]

/-- `_get_initial_mbis_propars` (mbis.py).  `rpowF` models the float power
`x ** y` of `alpha = (S1/S0) ** (1.0/(nshell-1))` with `S1 = 2.0` and
`S0 = 2.0 * number`.  The loop reads `nel_in_shell[ishell]` for every
`ishell < nshell`; when `nshell` exceeds the 7-entry table (exactly when
`number > 118`) that access is an `IndexError`, modelled as `none`.
Otherwise the vector is filled with the pairs
`(nel_in_shell[ishell], S0 * alpha**ishell)` and
`propars[-2] = number - propars[:-2:2].sum()` overwrites the last
population. -/
def get_initial_mbis_propars (rpowF : ℚ → ℚ → ℚ) (number : ℕ) : Option (List ℚ) :=
  let ns := get_nshell number
  if nelInShell.length < ns then none
  else
    let S0 : ℚ := 2 * number
    let alpha : ℚ := if 1 < ns then rpowF (2 / S0) (1 / ((ns : ℚ) - 1)) else 1
    let base := (List.range ns).flatMap (fun i => [nelInShell.getD i 0, S0 * alpha ^ i])
    some (base.set (2 * ns - 2)
      ((number : ℚ) - ((List.range (ns - 1)).map (fun i => nelInShell.getD i 0)).sum))

/-- Sum of the even-index entries, `np.sum(propars[0::2])` (the shell
populations). -/
def evensum : List ℚ → ℚ
  | [] => 0
  | [a] => a
  | a :: _ :: t => a + evensum t

/-- `4 * np.pi * r**2` on the unclipped radii (mbis.py does not clip `r`). -/
def mbisWf (pi : ℚ) (points : Fin m → ℚ) (p : Fin m) : ℚ := 4 * pi * points p ^ 2

/-- One shell contribution `terms[ishell] = N * S**3 * np.exp(-S*r) / (8*np.pi)`
with `N = propars[2*ishell]`, `S = propars[2*ishell+1]`; `expF` models
`np.exp`. -/
def mbisTerm (pi : ℚ) (expF : ℚ → ℚ) (points : Fin m → ℚ) (ps : List ℚ)
    (i : ℕ) (p : Fin m) : ℚ :=
  ps.getD (2 * i) 0 * ps.getD (2 * i + 1) 0 ^ 3 *
    expF (-(ps.getD (2 * i + 1) 0) * points p) / (8 * pi)

/-- `pro = terms.sum(axis=0)` (not clipped in mbis.py). -/
def mbisPro (pi : ℚ) (expF : ℚ → ℚ) (points : Fin m → ℚ) (ps : List ℚ)
    (p : Fin m) : ℚ :=
  ∑ i in Finset.range (ps.length / 2), mbisTerm pi expF points ps i p

/-- The masked density quotient: `ratio = rho / pro` zeroed on the `sick`
points where `rho` or `pro` lies below `density_cutoff`. -/
def mbisQuot (cutoff : ℚ) (rho pro : Fin m → ℚ) (p : Fin m) : ℚ :=
  if rho p < cutoff ∨ pro p < cutoff then 0 else rho p / pro p

/-- `m0 = rgrid.integrate(4*np.pi*r**2, terms[ishell])` after
`terms *= ratio`. -/
def mbisM0 (pi : ℚ) (expF : ℚ → ℚ) (points weights rho : Fin m → ℚ)
    (cutoff : ℚ) (ps : List ℚ) (i : ℕ) : ℚ :=
  ∑ p, mbisWf pi points p *
    (mbisTerm pi expF points ps i p * mbisQuot cutoff rho (mbisPro pi expF points ps) p) *
    weights p

/-- `m1 = rgrid.integrate(4*np.pi*r**2, terms[ishell], r)` after
`terms *= ratio`. -/
def mbisM1 (pi : ℚ) (expF : ℚ → ℚ) (points weights rho : Fin m → ℚ)
    (cutoff : ℚ) (ps : List ℚ) (i : ℕ) : ℚ :=
  ∑ p, mbisWf pi points p *
    (mbisTerm pi expF points ps i p * mbisQuot cutoff rho (mbisPro pi expF points ps) p) *
    points p * weights p

/-- The per-iteration MBIS parameter update:
`propars[2*ishell] = m0; propars[2*ishell+1] = 3*m0/m1` for every shell. -/
def mbisUpdate (pi : ℚ) (expF : ℚ → ℚ) (points weights rho : Fin m → ℚ)
    (cutoff : ℚ) (ps : List ℚ) : List ℚ :=
  (List.range (ps.length / 2)).flatMap (fun i =>
    [mbisM0 pi expF points weights rho cutoff ps i,
     3 * mbisM0 pi expF points weights rho cutoff ps i /
       mbisM1 pi expF points weights rho cutoff ps i])

/-- `pop = rgrid.integrate(4*np.pi*r**2, rho)` in `_opt_mbis_propars`. -/
def mbisPop (pi : ℚ) (points weights rho : Fin m → ℚ) : ℚ :=
  ∑ p, mbisWf pi points p * rho p * weights p

/-- The loop of `_opt_mbis_propars` (mbis.py).  On convergence the source
raises a `RuntimeWarning` unless `np.isclose(pop, np.sum(propars[0::2]),
atol=1e-4)` and then runs `check_pro_atom_parameters` (from the external
`utils` module, abstracted as `checkOk`; a failed check raises); it then
returns the updated parameters with the returned flag `true`.  Exhausting
the cap does NOT raise: the source logs
"MBIS not converged, but still go ahead!" and returns the last iterate,
modelled as `.ok (false, ps)`. -/
def mbisRun (pi : ℚ) (expF sqrtF : ℚ → ℚ) (points weights rho : Fin m → ℚ)
    (threshold cutoff : ℚ) (checkOk : List ℚ → (Fin m → ℚ) → Bool) :
    ℕ → List ℚ → Option (Fin m → ℚ) → Except PErr (Bool × List ℚ)
  | 0, ps, _ => .ok (false, ps)
  | fuel + 1, ps, oldpro =>
    let pro := mbisPro pi expF points ps
    let ps2 := mbisUpdate pi expF points weights rho cutoff ps
    let change := oldpro.elim big100 (fun op =>
      sqrtF (∑ p, mbisWf pi points p * (op p - pro p) * (op p - pro p) * weights p))
    if change < threshold then
      if ¬ iscloseB (mbisPop pi points weights rho) (evensum ps2)
          (1 / 10 ^ 4) (1 / 10 ^ 5) = true then .error .assertFail
      else if ¬ checkOk ps2 pro = true then .error .assertFail
      else .ok (true, ps2)
    else mbisRun pi expF sqrtF points weights rho threshold cutoff checkOk fuel ps2 (some pro)

/-- `_opt_mbis_propars` with its entry assertion `len(propars) % 2 == 0`,
its default `density_cutoff=1e-15` and its cap `range(2000)`. -/
def opt_mbis_propars (pi : ℚ) (expF sqrtF : ℚ → ℚ)
    (points weights rho : Fin m → ℚ) (threshold : ℚ)
    (checkOk : List ℚ → (Fin m → ℚ) → Bool) (ps : List ℚ) :
    Except PErr (Bool × List ℚ) :=
  if ps.length % 2 = 0 then
    mbisRun pi expF sqrtF points weights rho threshold (1 / 10 ^ 15) checkOk 2000 ps none
  else .error .assertFail

/-! ### A concrete executable model of `scipy.linalg.solve`:
Gaussian elimination over ℚ, returning `none` (the `LinAlgError`) when the
matrix is singular.  Used only to evaluate concrete instances. -/

/-- Pick the first row whose entry in column `j` is nonzero; return it with
the remaining rows. -/
def pivotRow (j : ℕ) : List (List ℚ) → Option (List ℚ × List (List ℚ))
  | [] => none
  | r :: rest =>
    if r.getD j 0 ≠ 0 then some (r, rest)
    else match pivotRow j rest with
      | none => none
      | some (pr, others) => some (pr, r :: others)

/-- Subtract the multiple of the pivot row that clears column `j` of `r`. -/
def elimStep (j : ℕ) (pr r : List ℚ) : List ℚ :=
  (List.range r.length).map (fun t => r.getD t 0 - r.getD j 0 / pr.getD j 0 * pr.getD t 0)

/-- Forward elimination on augmented rows, fuelled by the row count. -/
def gaussForward : ℕ → ℕ → List (List ℚ) → Option (List (List ℚ))
  | 0, _, rows => match rows with | [] => some [] | _ :: _ => none
  | fuel + 1, j, rows =>
    match rows with
    | [] => some []
    | _ :: _ =>
      match pivotRow j rows with
      | none => none
      | some (pr, rest) =>
        (gaussForward fuel (j + 1) (rest.map (elimStep j pr))).map (pr :: ·)

/-- Back substitution on the triangularized augmented rows: `acc` holds the
already-solved unknowns with the larger indices. -/
def backSolveAux (nn : ℕ) (tri : List (List ℚ)) : ℕ → List ℚ → List ℚ
  | 0, acc => acc
  | i + 1, acc =>
    let row := tri.getD i []
    let s := ((List.range (nn - (i + 1))).map
      (fun t => row.getD (i + 1 + t) 0 * acc.getD t 0)).sum
    backSolveAux nn tri i ((row.getD nn 0 - s) / row.getD i 0 :: acc)

/-- Solve `A x = b` by Gaussian elimination; `none` on a singular matrix. -/
def gaussSolve (A : List (List ℚ)) (b : List ℚ) : Option (List ℚ) :=
  let nn := A.length
  let aug := (List.range nn).map (fun i => A.getD i [] ++ [b.getD i 0])
  match gaussForward nn 0 aug with
  | none => none
  | some tri => some (backSolveAux nn tri nn [])

/-! ### The DIIS-accelerated solvers `opt_propars_fixed_points_diis` and
`opt_propars_fixed_points_diis2` (lisa.py).  The Pulay matrix is built as
a `List (List ℚ)` so that the external `scipy.linalg.eigvals` test
(`nearSing`, the `np.any(abs(w) < 1e-30)` linear-dependence detector) and
`scipy.linalg.solve` (`solveLin`; `none` = `LinAlgError`) can stay
abstract. -/

/-- Plain dot product over grid points, `np.einsum("ip,jp->ij", ...)`
entrywise (no quadrature weights). -/
def dotv (f g : Fin m → ℚ) : ℚ := ∑ p, f p * g p

/-- The python slice `l[-d:]`. -/
def lastN (d : ℕ) (l : List α) : List α := l.drop (l.length - d)

/-- The Pulay matrix of `opt_propars_fixed_points_diis`:
`B[:-1,:-1]` holds the residual inner products, the last row and column
are `-1` with `B[-1,-1] = 0`. -/
def buildB (dP : List (Fin m → ℚ)) : List (List ℚ) :=
  (List.range dP.length).map (fun i =>
    (List.range dP.length).map (fun j =>
      dotv (dP.getD i (fun _ => 0)) (dP.getD j (fun _ => 0))) ++ [-1]) ++
  [List.replicate dP.length (-1) ++ [(0 : ℚ)]]

/-- The Pulay matrix of `opt_propars_fixed_points_diis2`, whose residual
block is symmetrized: `(tmp + tmp.T) / 2`. -/
def buildB2 (dP : List (Fin n → ℚ)) : List (List ℚ) :=
  (List.range dP.length).map (fun i =>
    (List.range dP.length).map (fun j =>
      (dotv (dP.getD i (fun _ => 0)) (dP.getD j (fun _ => 0)) +
       dotv (dP.getD j (fun _ => 0)) (dP.getD i (fun _ => 0))) / 2) ++ [-1]) ++
  [List.replicate dP.length (-1) ++ [(0 : ℚ)]]

/-- The right-hand side of the Pulay equation: zeros with a final `-1`. -/
def rhsVec (d : ℕ) : List ℚ := List.replicate d 0 ++ [(-1 : ℚ)]

/-- The loop state of `opt_propars_fixed_points_diis`: iteration counter,
parameters, the stored pro-atom density (`oldpro`), the three history
lists (`history_shells`, `history_pros`, `history_diis`) and the
`turn_off_diis` flag. -/
structure DiisSt (n m : ℕ) where
  irep : ℕ
  ps : Fin n → ℚ
  oldpro : Option (Fin m → ℚ)
  hS : List (Fin n → Fin m → ℚ)
  hP : List (Fin m → ℚ)
  hD : List (Fin m → ℚ)
  off : Bool
  deriving DecidableEq

/-- The DIIS residual `diis_r = pro if irep == 0 else pro - oldpro`
(with `pro` the clipped current pro-atom density; on the `irep == 0`
branch `oldpro` is still `None` and is never read). -/
def diisResid (C : Ctx n m) (st : DiisSt n m) : Fin m → ℚ :=
  if st.irep = 0 then clipPro C st.ps
  else fun p => clipPro C st.ps p - (st.oldpro.getD (fun _ => 0)) p

/-- The final parameter update of a DIIS iteration,
`propars[:] = np.einsum("ip,p->i", shells * rho / pro, 4*np.pi*r**2*weights)`,
applied to whichever `shells`/`pro` pair survives the DIIS branch. -/
def diisPsUpd (C : Ctx n m) (shells : Fin n → Fin m → ℚ) (pro : Fin m → ℚ)
    (k : Fin n) : ℚ :=
  ∑ p, shells k p * C.rho p / pro p * (wf C p * C.weights p)

/-- One iteration of `opt_propars_fixed_points_diis` (lisa.py).
`start_diis_iter = diis_size`, so the histories are appended on every
iteration; on convergence the source asserts
`np.isclose(N_a, np.sum(propars), rtol=1e-5)` and checks the parameters
against `-1e-10`, then returns.  In the DIIS branch a near-singular Pulay
matrix (`nearSing`) or a `LinAlgError` from `solve` (`solveLin = none`)
turns DIIS off and leaves the plain `shells`/`pro` in place; otherwise the
extrapolated pair is clipped and used.  Either way the iteration ends with
the plain fixed-point update formula applied to the surviving pair. -/
def diisBody (C : Ctx n m) (dsize : ℕ) (nearSing : List (List ℚ) → Bool)
    (solveLin : List (List ℚ) → List ℚ → Option (List ℚ)) (st : DiisSt n m) :
    Except PErr ((Fin n → ℚ) ⊕ DiisSt n m) :=
  let shells := fun (k : Fin n) (p : Fin m) => st.ps k * C.bsF k p
  let pro := clipPro C st.ps
  let dr := diisResid C st
  let hS2 := st.hS ++ [shells]
  let hP2 := st.hP ++ [pro]
  let hD2 := st.hD ++ [dr]
  let drms := C.sqrtF (rint3 C (wf C) dr dr)
  if drms < C.threshold then
    if ¬ iscloseB (popInt C) (sumv st.ps) (1 / 10 ^ 8) (1 / 10 ^ 5) = true then
      .error .assertFail
    else if ¬ ∀ k, negTol ≤ st.ps k then .error .negative
    else .ok (.inl st.ps)
  else
    let stepped :=
      if st.off = false ∧ dsize ≤ st.irep then
        let dP := lastN dsize hD2
        let B := buildB dP
        if nearSing B = true then (shells, pro, true)
        else
          match solveLin B (rhsVec dP.length) with
          | none => (shells, pro, true)
          | some coeff =>
            let hSl := lastN dsize hS2
            let hPl := lastN dsize hP2
            let sh2 := fun (k : Fin n) (p : Fin m) =>
              ∑ i in Finset.range hSl.length,
                coeff.getD i 0 * (hSl.getD i (fun _ _ => 0)) k p
            let pr2 := fun (p : Fin m) =>
              ∑ i in Finset.range hPl.length,
                coeff.getD i 0 * (hPl.getD i (fun _ => 0)) p
            (fun k p => max (sh2 k p) qsmall, fun p => max (pr2 p) qsmall, st.off)
      else (shells, pro, st.off)
    .ok (.inr ⟨st.irep + 1, diisPsUpd C stepped.1 stepped.2.1,
      some stepped.2.1, hS2, hP2, hD2, stepped.2.2⟩)

/-- The loop of `opt_propars_fixed_points_diis`; exhaustion raises. -/
def diisRun (C : Ctx n m) (dsize : ℕ) (nearSing : List (List ℚ) → Bool)
    (solveLin : List (List ℚ) → List ℚ → Option (List ℚ)) :
    ℕ → DiisSt n m → Except PErr (Fin n → ℚ)
  | 0, _ => .error .nonConvergence
  | fuel + 1, st =>
    match diisBody C dsize nearSing solveLin st with
    | .error e => .error e
    | .ok (.inl ps) => .ok ps
    | .ok (.inr st2) => diisRun C dsize nearSing solveLin fuel st2

/-- `opt_propars_fixed_points_diis` with its cap `range(1000)` and empty
initial histories. -/
def opt_propars_fixed_points_diis (C : Ctx n m) (dsize : ℕ)
    (nearSing : List (List ℚ) → Bool)
    (solveLin : List (List ℚ) → List ℚ → Option (List ℚ)) (ps : Fin n → ℚ) :
    Except PErr (Fin n → ℚ) :=
  diisRun C dsize nearSing solveLin 1000 ⟨0, ps, none, [], [], [], false⟩

/-- The loop state of `opt_propars_fixed_points_diis2`: iteration counter,
parameters and the two history lists (`history_propars`, `history_diis`). -/
structure Diis2St (n : ℕ) where
  irep : ℕ
  ps : Fin n → ℚ
  hP : List (Fin n → ℚ)
  hD : List (Fin n → ℚ)
  deriving DecidableEq

/-- One iteration of `opt_propars_fixed_points_diis2` (lisa.py).
`fun_val` is the plain fixed-point image, the residual lives in amplitude
space with the Euclidean norm, `start_diis_iter = diis_size + 1` so the
histories are appended from `irep >= 1` on.  The Pulay solve
`coeff = solve(B, rhs)` is NOT wrapped in try/except: a singular matrix
(`solveLin = none`) propagates as an error.  After the solve the source
asserts `np.isclose(np.sum(coeff[:-1]), 1)` and finally checks the new
parameters against `-1e-10`. -/
def diis2Body (C : Ctx n m) (dsize : ℕ)
    (solveLin : List (List ℚ) → List ℚ → Option (List ℚ)) (st : Diis2St n) :
    Except PErr ((Fin n → ℚ) ⊕ Diis2St n) :=
  let funv := diisPsUpd C (fun k p => st.ps k * C.bsF k p) (clipPro C st.ps)
  let dr := fun k => st.ps k - funv k
  let drms := C.sqrtF (∑ k, dr k * dr k)
  if drms < C.threshold then .ok (.inl st.ps)
  else
    let hP2 := if 1 ≤ st.irep then st.hP ++ [funv] else st.hP
    let hD2 := if 1 ≤ st.irep then st.hD ++ [dr] else st.hD
    let nextPs : Except PErr (Fin n → ℚ) :=
      if dsize + 1 ≤ st.irep then
        let dP := lastN dsize hD2
        match solveLin (buildB2 dP) (rhsVec dP.length) with
        | none => .error .singular
        | some coeff =>
          if ¬ iscloseB (((List.range dP.length).map (fun i => coeff.getD i 0)).sum) 1
              (1 / 10 ^ 8) (1 / 10 ^ 5) = true then .error .assertFail
          else
            let hPl := lastN dsize hP2
            .ok (fun k => ∑ i in Finset.range hPl.length,
              coeff.getD i 0 * (hPl.getD i (fun _ => 0)) k)
      else .ok funv
    match nextPs with
    | .error e => .error e
    | .ok ps2 =>
      if ¬ ∀ k, negTol ≤ ps2 k then .error .negative
      else .ok (.inr ⟨st.irep + 1, ps2, hP2, hD2⟩)

/-- The loop of `opt_propars_fixed_points_diis2`; exhaustion raises. -/
def diis2Run (C : Ctx n m) (dsize : ℕ)
    (solveLin : List (List ℚ) → List ℚ → Option (List ℚ)) :
    ℕ → Diis2St n → Except PErr (Fin n → ℚ)
  | 0, _ => .error .nonConvergence
  | fuel + 1, st =>
    match diis2Body C dsize solveLin st with
    | .error e => .error e
    | .ok (.inl ps) => .ok ps
    | .ok (.inr st2) => diis2Run C dsize solveLin fuel st2

/-- `opt_propars_fixed_points_diis2` with its cap `range(1000)` and empty
initial histories. -/
def opt_propars_fixed_points_diis2 (C : Ctx n m) (dsize : ℕ)
    (solveLin : List (List ℚ) → List ℚ → Option (List ℚ)) (ps : Fin n → ℚ) :
    Except PErr (Fin n → ℚ) :=
  diis2Run C dsize solveLin 1000 ⟨0, ps, [], []⟩

/-! ### The constrained quadratic program `_constrained_least_squares_quadprog`
(gisa.py).  `quadprog.solve_qp` is external; it is abstracted as `solveQP`,
and its documented semantics (minimize `1/2 x^T G x - a^T x` subject to
`C^T x >= b`, the first `meq` constraints as equalities) is captured by
`quadprogFeasible`.  `pow32` models the float power `x ** 1.5`. -/

/-- The Gram matrix exactly as gisa.py assembles it:
`S = 2 / np.pi**1.5 * (alphas_k*alphas_l)**1.5 / (alphas_k+alphas_l)**1.5`. -/
def gramS (pow32 : ℚ → ℚ) (pi : ℚ) (alphas : Fin n → ℚ) (k l : Fin n) : ℚ :=
  2 / pow32 pi * pow32 (alphas k * alphas l) / pow32 (alphas k + alphas l)

/-- The Gram matrix as the spec writes it:
`S_kl = 2 (alpha_k alpha_l)^1.5 / pi^1.5 / (alpha_k+alpha_l)^1.5`. -/
def gramSpec (pow32 : ℚ → ℚ) (pi : ℚ) (alphas : Fin n → ℚ) (k l : Fin n) : ℚ :=
  2 * pow32 (alphas k * alphas l) / pow32 pi / pow32 (alphas k + alphas l)

/-- `vec_b[k] = 2 * rgrid.integrate(4*np.pi*r**2, gauss_funcs[k], rho)`. -/
def quadprogVecB (C : Ctx n m) (k : Fin n) : ℚ := 2 * rint3 C (wf C) (C.bsF k) C.rho

/-- The constraint matrix of gisa.py: first column all ones (the equality
`sum c = N_a`), then the identity (the inequalities `c_k >= 0`). -/
def quadprogMatC (n : ℕ) (i : Fin n) (j : Fin (n + 1)) : ℚ :=
  if j = 0 then 1 else if (j : ℕ) = (i : ℕ) + 1 then 1 else 0

/-- The constraint vector of gisa.py: `N_a` in the first slot, zeros after. -/
def quadprogVecC (C : Ctx n m) (j : Fin (n + 1)) : ℚ := if j = 0 then popInt C else 0

/-- `quadprog.solve_qp` feasibility (from the quadprog documentation, an
external interface): `C^T x >= b` with the first `meq` rows as equalities. -/
def quadprogFeasible (Cm : Fin n → Fin (n + 1) → ℚ) (v : Fin (n + 1) → ℚ)
    (meq : ℕ) (x : Fin n → ℚ) : Prop :=
  (∀ j : Fin (n + 1), (j : ℕ) < meq → ∑ i, Cm i j * x i = v j) ∧
  (∀ j : Fin (n + 1), meq ≤ (j : ℕ) → v j ≤ ∑ i, Cm i j * x i)

/-- `_constrained_least_squares_quadprog` (gisa.py): assemble `S`, `vec_b`
and the constraints and hand them to `quadprog.solve_qp` once (`meq = 1`);
the first component of its output is returned unchanged.  There is no
loop. -/
def constrained_least_squares_quadprog
    (solveQP : (Fin n → Fin n → ℚ) → (Fin n → ℚ) → (Fin n → Fin (n + 1) → ℚ) →
      (Fin (n + 1) → ℚ) → ℕ → (Fin n → ℚ))
    (pow32 : ℚ → ℚ) (C : Ctx n m) (alphas : Fin n → ℚ) : Fin n → ℚ :=
  solveQP (gramS pow32 C.pi alphas) (quadprogVecB C) (quadprogMatC n) (quadprogVecC C) 1

/-! ### The per-atom update `_update_propars_atom` (gisa.py): run the
configured solver on the clipped spherical average, then set
`charges[iatom] = pseudo_numbers[iatom] - pseudo_population` with
`pseudo_population = rgrid.integrate(4*np.pi*r**2*spherical_average)`.
Here `C.rho` plays the role of the (already clipped) spherical average. -/

/-- The pseudo population: one-integrand quadrature of
`4*np.pi*r**2*spherical_average` over the clipped radii. -/
def pseudoPopulation (C : Ctx n m) : ℚ := rint1 C (fun p => wf C p * C.rho p)

/-- `_update_propars_atom` (gisa.py) reduced to its data flow: the solver
(abstract; gisa dispatches on `self._solver`) produces the new parameters
from the spherical average and the warm start, and the charge is
recomputed from the spherical average alone. -/
def update_propars_atom (C : Ctx n m)
    (solver : (Fin m → ℚ) → (Fin n → ℚ) → Fin n → ℚ) (ps : Fin n → ℚ)
    (pseudo : ℚ) : (Fin n → ℚ) × ℚ :=
  (solver C.rho ps, pseudo - pseudoPopulation C)

/-- Modelled from the spec: the population of the fitted pro-atom model
density `sum_k c_k * g_k` (glossary: "Pro-atom density: a parametrized
model density for one atom (sum of weighted shell basis functions)"),
integrated over the radial grid. -/
def proatomPop (C : Ctx n m) (c : Fin n → ℚ) : ℚ :=
  rint2 C (wf C) (fun p => ∑ k, c k * C.bsF k p)

/-! ### The globally-consistent mode: `eval_proshells` (centers) and the
Hessian block of `_working_matrix` (lisa.py). -/

/-- The center table filled by `eval_proshells`: the array is allocated
with one row per shell (zero-initialized by the cache), but the loop
writes `centers[a] = self.coordinates[a, :]` with `a` the ATOM index, so
only the first `natom` rows ever receive coordinates and every row with
index `>= natom` keeps its zeros. -/
def proshell_centers (natom ns : ℕ) (coords : Fin natom → Fin 3 → ℚ)
    (i : Fin ns) : Fin 3 → ℚ :=
  if h : (i : ℕ) < natom then coords ⟨i, h⟩ else fun _ => 0

/-- Squared Euclidean distance of two center rows;
`np.linalg.norm(centers[i] - centers[j]) > 16` is equivalent to
`distSq > 16^2` since the norm is non-negative. -/
def distSq (a b : Fin 3 → ℚ) : ℚ := ∑ t, (a t - b t) ^ 2

/-- The untruncated Hessian entry of `_working_matrix`:
`hess[i,j] = grid.integrate(df_integrand * g_bj / rho0)` with
`df_integrand = rho * g_i / rho0` and `grid.integrate(f)` the molecular
quadrature `sum w * f`. -/
def hessEntryFull {M ns : ℕ} (gw rho rho0 : Fin M → ℚ)
    (g : Fin ns → Fin M → ℚ) (i j : Fin ns) : ℚ :=
  ∑ p, gw p * (rho p * g i p / rho0 p * g j p / rho0 p)

/-- The Hessian block assembled by `_working_matrix` (lisa.py): for
`j >= i` the entry is zero when `np.linalg.norm(centers[i]-centers[j]) > 16`
and the full pairwise integral otherwise, and `hess[j,i] = hess[i,j]`
mirrors it.  The double loop `for i ... for j in range(i, npars)` is
rendered by evaluating the body at the sorted index pair. -/
def working_matrix_hess {M ns : ℕ} (gw rho rho0 : Fin M → ℚ)
    (g : Fin ns → Fin M → ℚ) (centers : Fin ns → Fin 3 → ℚ)
    (i j : Fin ns) : ℚ :=
  let a := if (i : ℕ) ≤ (j : ℕ) then (i, j) else (j, i)
  if 16 ^ 2 < distSq (centers a.1) (centers a.2) then 0
  else hessEntryFull gw rho rho0 g a.1 a.2

/-- The blend as the spec describes it (refinement counterpart, written
from the spec's words, not from the source): "blends 90% new / 10%
previous amplitude before the next iteration". -/
def blendSpec90new (newPs prev : Fin n → ℚ) (k : Fin n) : ℚ :=
  9 / 10 * newPs k + 1 / 10 * prev k

/-- A concrete one-shell, one-point solver context used by witnesses:
`np.pi` modelled as 3, `np.sqrt` as the identity, unit radius, weight,
basis value and density, threshold 2. -/
def exCtxA : Ctx 1 1 :=
  { pi := 3, sqrtF := id, points := fun _ => 1, weights := fun _ => 1,
    bsF := fun _ _ => 1, rho := fun _ => 1, threshold := 2 }

/-- A concrete context whose convergence test can never fire: threshold 0
and a square-root model that is identically 0. -/
def exCtxZ : Ctx 1 1 :=
  { pi := 3, sqrtF := fun _ => 0, points := fun _ => 1, weights := fun _ => 1,
    bsF := fun _ _ => 1, rho := fun _ => 1, threshold := 0 }

/-- A concrete context with a huge threshold (at most the `1e100`
sentinel), under which the Newton loop converges immediately on its
second iteration. -/
def exCtxB : Ctx 1 1 :=
  { pi := 3, sqrtF := id, points := fun _ => 1, weights := fun _ => 1,
    bsF := fun _ _ => 1, rho := fun _ => 1, threshold := big100 }

/-- A concrete context with threshold 2000, under which the DIIS loop
converges on its very first iteration. -/
def exCtxW : Ctx 1 1 :=
  { pi := 3, sqrtF := id, points := fun _ => 1, weights := fun _ => 1,
    bsF := fun _ _ => 1, rho := fun _ => 1, threshold := 2000 }

/-- A concrete two-atom geometry: atom 0 at the origin, atom 1 at
`(20, 0, 0)` - farther apart than the cutoff distance 16.  Each atom owns
two shells, in `eval_proshells` order (shells 0,1 of atom 0; shells 2,3 of
atom 1). -/
def exCoords : Fin 2 → Fin 3 → ℚ := fun a t => if a = 1 ∧ t = 0 then 20 else 0

/-!
## Theorems
-/

/-- No-clip population identity of one SC update: when the unclipped
pro-atom density is everywhere at least the clip floor, the updated
amplitudes sum exactly to the integrated target population. -/
theorem sumv_scUpd (C : Ctx n m) (ps : Fin n → ℚ)
    (hfl : ∀ p, qsmall ≤ proRaw C ps p) :
    sumv (scUpd C ps) = popInt C := by
  have hq : (0 : ℚ) < qsmall := by norm_num [qsmall]
  unfold sumv scUpd rint2 popInt
  rw [Finset.sum_comm]
  refine Finset.sum_congr rfl (fun p _ => ?_)
  have h0 : proRaw C ps p ≠ 0 := ne_of_gt (lt_of_lt_of_le hq (hfl p))
  have hcl : clipPro C ps p = proRaw C ps p := max_eq_left (hfl p)
  have step1 : ∀ k : Fin n, wf C p * (ps k * C.bsF k p * C.rho p / clipPro C ps p) *
      C.weights p =
      wf C p * C.rho p * C.weights p / proRaw C ps p * (ps k * C.bsF k p) := by
    intro k; rw [hcl]; ring
  calc ∑ k : Fin n, wf C p * (ps k * C.bsF k p * C.rho p / clipPro C ps p) * C.weights p
      = ∑ k : Fin n, wf C p * C.rho p * C.weights p / proRaw C ps p *
          (ps k * C.bsF k p) := Finset.sum_congr rfl (fun k _ => step1 k)
    _ = wf C p * C.rho p * C.weights p / proRaw C ps p * proRaw C ps p := by
        rw [← Finset.mul_sum]; rfl
    _ = wf C p * C.rho p * C.weights p := div_mul_cancel₀ _ h0

/-- Along any `scRun` trace on which the clip floor never bites, a
successful return sums exactly to the integrated population. -/
theorem scRun_pop (C : Ctx n m) :
    ∀ (fuel : ℕ) (ps : Fin n → ℚ) (oldpro : Option (Fin m → ℚ)) (psf : Fin n → ℚ),
      scRun C fuel ps oldpro = .ok psf → scOkB C fuel ps oldpro = true →
      sumv psf = popInt C := by
  intro fuel
  induction fuel with
  | zero => intro ps oldpro psf h _; simp [scRun] at h
  | succ fuel ih =>
    intro ps oldpro psf h hok
    simp only [scRun, scOkB] at h hok
    by_cases hneg : ¬ ∀ k p, 0 ≤ ps k * C.bsF k p
    · rw [if_pos hneg] at h; exact absurd h (by simp)
    · rw [if_neg hneg] at h
      rw [if_neg hneg] at hok
      simp only [Bool.and_eq_true, decide_eq_true_eq] at hok
      obtain ⟨hfl, hrest⟩ := hok
      by_cases hcv : changeOf C oldpro (clipPro C ps) < C.threshold
      · rw [if_pos hcv] at h
        have hps : psf = scUpd C ps := by
          injection h with h2; exact h2.symm
        rw [hps]; exact sumv_scUpd C ps hfl
      · rw [if_neg hcv] at h
        rw [if_neg hcv] at hrest
        exact ih _ _ _ h hrest

/-- When the square-root model is non-negative and the threshold is not
positive, the convergence test of the SC-family loops never fires. -/
theorem changeOf_not_lt (C : Ctx n m) (hs : ∀ x, 0 ≤ C.sqrtF x)
    (ht : C.threshold ≤ 0) (oldpro : Option (Fin m → ℚ)) (pro : Fin m → ℚ) :
    ¬ changeOf C oldpro pro < C.threshold := by
  cases oldpro with
  | none =>
    simp only [changeOf, Option.elim_none]
    intro hlt
    have : (0 : ℚ) < big100 := by norm_num [big100]
    linarith
  | some op =>
    simp only [changeOf, Option.elim_some]
    intro hlt
    have := hs (rint3 C (wf C) (fun p => op p - pro p) (fun p => op p - pro p))
    simp only [changeQ] at hlt
    linarith

/-- One SC update preserves non-negativity of the amplitudes when the
grid data are non-negative. -/
theorem scUpd_nonneg (C : Ctx n m) (hpi : 0 ≤ C.pi) (hw : ∀ p, 0 ≤ C.weights p)
    (hrho : ∀ p, 0 ≤ C.rho p) (hbs : ∀ k p, 0 ≤ C.bsF k p) (ps : Fin n → ℚ)
    (hps : ∀ k, 0 ≤ ps k) (k : Fin n) : 0 ≤ scUpd C ps k := by
  unfold scUpd rint2
  refine Finset.sum_nonneg (fun p _ => ?_)
  have hwf : 0 ≤ wf C p := by
    unfold wf
    positivity
  have hclip : 0 < clipPro C ps p := by
    refine lt_of_lt_of_le ?_ (le_max_right _ _)
    norm_num [qsmall]
  have hnum : 0 ≤ ps k * C.bsF k p * C.rho p :=
    mul_nonneg (mul_nonneg (hps k) (hbs k p)) (hrho p)
  exact mul_nonneg (mul_nonneg hwf (div_nonneg hnum hclip.le)) (hw p)

/-- With non-negative inputs and a never-firing convergence test, `scRun`
exhausts its cap and raises the non-convergence error, whatever the fuel. -/
theorem scRun_nonConv (C : Ctx n m) (hpi : 0 ≤ C.pi) (hw : ∀ p, 0 ≤ C.weights p)
    (hrho : ∀ p, 0 ≤ C.rho p) (hbs : ∀ k p, 0 ≤ C.bsF k p)
    (hs : ∀ x, 0 ≤ C.sqrtF x) (ht : C.threshold ≤ 0) :
    ∀ (fuel : ℕ) (ps : Fin n → ℚ), (∀ k, 0 ≤ ps k) →
      ∀ oldpro, scRun C fuel ps oldpro = .error .nonConvergence := by
  intro fuel
  induction fuel with
  | zero => intro ps _ oldpro; rfl
  | succ fuel ih =>
    intro ps hps oldpro
    have hneg : ∀ k p, 0 ≤ ps k * C.bsF k p :=
      fun k p => mul_nonneg (hps k) (hbs k p)
    simp only [scRun, not_forall]
    rw [if_neg (by push_neg; intro k p; exact hneg k p)]
    rw [if_neg (changeOf_not_lt C hs ht oldpro (clipPro C ps))]
    exact ih _ (scUpd_nonneg C hpi hw hrho hbs ps hps) _

/-- With a never-firing convergence test, the damped SC loop exhausts its
cap and raises the non-convergence error, whatever the fuel. -/
theorem dampRun_nonConv (C : Ctx n m) (p0 : Fin n → ℚ) (hs : ∀ x, 0 ≤ C.sqrtF x)
    (ht : C.threshold ≤ 0) :
    ∀ (fuel : ℕ) (ps : Fin n → ℚ) (oldpro : Option (Fin m → ℚ)),
      dampRun C p0 fuel ps oldpro = .error .nonConvergence := by
  intro fuel
  induction fuel with
  | zero => intro ps oldpro; rfl
  | succ fuel ih =>
    intro ps oldpro
    simp only [dampRun]
    rw [if_neg (changeOf_not_lt C hs ht oldpro (clipPro C ps))]
    exact ih _ _

/-- With a never-firing convergence test, the SC-plus-LISA1 loop exhausts
its cap; the fallback call then raises the arity `TypeError`, whatever the
fuel. -/
theorem plusLisa1Run_nonConv (C : Ctx n m) (hs : ∀ x, 0 ≤ C.sqrtF x)
    (ht : C.threshold ≤ 0) :
    ∀ (fuel : ℕ) (ps : Fin n → ℚ) (oldpro : Option (Fin m → ℚ)),
      plusLisa1Run C fuel ps oldpro = .error .typeErr := by
  intro fuel
  induction fuel with
  | zero => intro ps oldpro; rfl
  | succ fuel ih =>
    intro ps oldpro
    simp only [plusLisa1Run]
    rw [if_neg (changeOf_not_lt C hs ht oldpro (clipPro C ps))]
    exact ih _ _

/-- With a never-firing convergence test, the Newton loop never returns a
value: it either hits one of its fatal checks or exhausts its cap, and in
all cases an error is raised, whatever the fuel. -/
theorem newtonRun_nonConv (C : Ctx n m)
    (solveLin : (Fin n → Fin n → ℚ) → (Fin n → ℚ) → Option (Fin n → ℚ))
    (hs : ∀ x, 0 ≤ C.sqrtF x) (ht : C.threshold ≤ 0) :
    ∀ (fuel : ℕ) (ps : Fin n → ℚ) (oldpro : Option (Fin m → ℚ)),
      ∃ e, newtonRun C solveLin fuel ps oldpro = .error e := by
  intro fuel
  induction fuel with
  | zero => intro ps oldpro; exact ⟨.nonConvergence, rfl⟩
  | succ fuel ih =>
    intro ps oldpro
    simp only [newtonRun]
    by_cases h1 : ¬ ∀ k p, negTol5 ≤ ps k * C.bsF k p
    · rw [if_pos h1]; exact ⟨.negative, rfl⟩
    · rw [if_neg h1]
      by_cases h2 : ¬ ∀ p, negTol ≤ proRaw C ps p
      · rw [if_pos h2]; exact ⟨.negative, rfl⟩
      · rw [if_neg h2]
        rw [if_neg (changeOf_not_lt C hs ht oldpro (clipPro C ps))]
        cases hsl : solveLin (newtonGrad C ps) (fun k => -(newtonH C ps k)) with
        | none => exact ⟨.singular, rfl⟩
        | some delta =>
          dsimp only
          by_cases h3 : ¬ ∀ k, negTol ≤ ps k + delta k
          · rw [if_pos h3]; exact ⟨.negative, rfl⟩
          · rw [if_neg h3]; exact ih _ _

/-- When the convergence test cannot fire, a DIIS iteration always hands a
successor state to the next iteration (never an error and never a return):
every fatal path of `opt_propars_fixed_points_diis` sits behind the
convergence test, and a singular Pulay matrix only turns DIIS off. -/
theorem diisBody_inr (C : Ctx n m) (dsize : ℕ) (nearSing : List (List ℚ) → Bool)
    (solveLin : List (List ℚ) → List ℚ → Option (List ℚ)) (st : DiisSt n m)
    (hs : ∀ x, 0 ≤ C.sqrtF x) (ht : C.threshold ≤ 0) :
    ∃ st2, diisBody C dsize nearSing solveLin st = .ok (.inr st2) := by
  have hdr : ¬ C.sqrtF (rint3 C (wf C) (diisResid C st) (diisResid C st)) <
      C.threshold := by
    intro hlt
    have := hs (rint3 C (wf C) (diisResid C st) (diisResid C st))
    linarith
  simp only [diisBody]
  rw [if_neg hdr]
  exact ⟨_, rfl⟩

/-- With a never-firing convergence test, the DIIS loop exhausts its cap
and raises the non-convergence error, whatever the fuel. -/
theorem diisRun_nonConv (C : Ctx n m) (dsize : ℕ) (nearSing : List (List ℚ) → Bool)
    (solveLin : List (List ℚ) → List ℚ → Option (List ℚ))
    (hs : ∀ x, 0 ≤ C.sqrtF x) (ht : C.threshold ≤ 0) :
    ∀ (fuel : ℕ) (st : DiisSt n m),
      diisRun C dsize nearSing solveLin fuel st = .error .nonConvergence := by
  intro fuel
  induction fuel with
  | zero => intro st; rfl
  | succ fuel ih =>
    intro st
    obtain ⟨st2, hbody⟩ := diisBody_inr C dsize nearSing solveLin st hs ht
    rw [diisRun, hbody]
    exact ih st2

/-- When the convergence test cannot fire, a DIIS2 iteration never returns
a value (it continues or raises). -/
theorem diis2Body_not_inl (C : Ctx n m) (dsize : ℕ)
    (solveLin : List (List ℚ) → List ℚ → Option (List ℚ)) (st : Diis2St n)
    (hs : ∀ x, 0 ≤ C.sqrtF x) (ht : C.threshold ≤ 0) (ps : Fin n → ℚ) :
    diis2Body C dsize solveLin st ≠ .ok (.inl ps) := by
  have hdr : ∀ dr : Fin n → ℚ, ¬ C.sqrtF (∑ k, dr k * dr k) < C.threshold := by
    intro dr hlt
    have := hs (∑ k, dr k * dr k)
    linarith
  simp only [diis2Body]
  rw [if_neg (hdr _)]
  by_cases hact : dsize + 1 ≤ st.irep
  · rw [if_pos hact]
    rcases hsl : solveLin _ _ with _ | coeff
    · simp
    · dsimp only
      split
      · simp
      · split
        · simp
        · simp
  · rw [if_neg hact]
    dsimp only
    split
    · simp
    · simp

/-- With a never-firing convergence test, the DIIS2 loop always ends in an
error (its cap, its Pulay solve, its coefficient assertion or its
negativity check), whatever the fuel. -/
theorem diis2Run_nonConv (C : Ctx n m) (dsize : ℕ)
    (solveLin : List (List ℚ) → List ℚ → Option (List ℚ))
    (hs : ∀ x, 0 ≤ C.sqrtF x) (ht : C.threshold ≤ 0) :
    ∀ (fuel : ℕ) (st : Diis2St n),
      ∃ e, diis2Run C dsize solveLin fuel st = .error e := by
  intro fuel
  induction fuel with
  | zero => intro st; exact ⟨.nonConvergence, rfl⟩
  | succ fuel ih =>
    intro st
    rcases hbody : diis2Body C dsize solveLin st with e | v
    · rw [diis2Run, hbody]; exact ⟨e, rfl⟩
    · rcases v with ps | st2
      · exact absurd hbody (diis2Body_not_inl C dsize solveLin st hs ht ps)
      · rw [diis2Run, hbody]; exact ih st2

/-- With a never-firing convergence test, the MBIS inner loop exhausts its
cap and RETURNS the last iterate (flagged unconverged) instead of raising,
whatever the fuel. -/
theorem mbisRun_nonConv (pi : ℚ) (expF sqrtF : ℚ → ℚ)
    (points weights rho : Fin m → ℚ) (threshold cutoff : ℚ)
    (checkOk : List ℚ → (Fin m → ℚ) → Bool)
    (hs : ∀ x, 0 ≤ sqrtF x) (ht : threshold ≤ 0) :
    ∀ (fuel : ℕ) (ps : List ℚ) (oldpro : Option (Fin m → ℚ)),
      ∃ psf, mbisRun pi expF sqrtF points weights rho threshold cutoff checkOk
        fuel ps oldpro = .ok (false, psf) := by
  intro fuel
  induction fuel with
  | zero => intro ps oldpro; exact ⟨ps, rfl⟩
  | succ fuel ih =>
    intro ps oldpro
    have hcv : ¬ oldpro.elim big100 (fun op =>
        sqrtF (∑ p, mbisWf pi points p * (op p - mbisPro pi expF points ps p) *
          (op p - mbisPro pi expF points ps p) * weights p)) < threshold := by
      cases oldpro with
      | none =>
        simp only [Option.elim_none]
        intro hlt
        have : (0 : ℚ) < big100 := by norm_num [big100]
        linarith
      | some op =>
        simp only [Option.elim_some]
        intro hlt
        have := hs (∑ p, mbisWf pi points p * (op p - mbisPro pi expF points ps p) *
          (op p - mbisPro pi expF points ps p) * weights p)
        linarith
    simp only [mbisRun]
    rw [if_neg hcv]
    exact ih _ _

/-- A stationary point of the MBIS update together with a never-firing
convergence test makes the MBIS loop return that very iterate, flagged
unconverged, for every fuel. -/
theorem mbisRun_stationary (pi : ℚ) (expF sqrtF : ℚ → ℚ)
    (points weights rho : Fin m → ℚ) (threshold cutoff : ℚ)
    (checkOk : List ℚ → (Fin m → ℚ) → Bool) (ps : List ℚ)
    (hstat : mbisUpdate pi expF points weights rho cutoff ps = ps)
    (hs : ∀ x, 0 ≤ sqrtF x) (ht : threshold ≤ 0) :
    ∀ (fuel : ℕ) (oldpro : Option (Fin m → ℚ)),
      mbisRun pi expF sqrtF points weights rho threshold cutoff checkOk
        fuel ps oldpro = .ok (false, ps) := by
  intro fuel
  induction fuel with
  | zero => intro oldpro; rfl
  | succ fuel ih =>
    intro oldpro
    have hcv : ¬ oldpro.elim big100 (fun op =>
        sqrtF (∑ p, mbisWf pi points p * (op p - mbisPro pi expF points ps p) *
          (op p - mbisPro pi expF points ps p) * weights p)) < threshold := by
      cases oldpro with
      | none =>
        simp only [Option.elim_none]
        intro hlt
        have : (0 : ℚ) < big100 := by norm_num [big100]
        linarith
      | some op =>
        simp only [Option.elim_some]
        intro hlt
        have := hs (∑ p, mbisWf pi points p * (op p - mbisPro pi expF points ps p) *
          (op p - mbisPro pi expF points ps p) * weights p)
        linarith
    simp only [mbisRun]
    rw [if_neg hcv, hstat]
    exact ih _

/-- A DIIS iteration returns a value only through its convergence branch,
whose `assert np.isclose(N_a, np.sum(propars), rtol=1e-5)` guards it. -/
theorem diisBody_inl (C : Ctx n m) (dsize : ℕ) (nearSing : List (List ℚ) → Bool)
    (solveLin : List (List ℚ) → List ℚ → Option (List ℚ)) (st : DiisSt n m)
    (ps : Fin n → ℚ)
    (h : diisBody C dsize nearSing solveLin st = .ok (.inl ps)) :
    iscloseB (popInt C) (sumv ps) (1 / 10 ^ 8) (1 / 10 ^ 5) = true := by
  simp only [diisBody] at h
  by_cases hdr : C.sqrtF (rint3 C (wf C) (diisResid C st) (diisResid C st)) <
      C.threshold
  · rw [if_pos hdr] at h
    by_cases hcl : ¬ iscloseB (popInt C) (sumv st.ps) (1 / 10 ^ 8) (1 / 10 ^ 5) = true
    · rw [if_pos hcl] at h; exact absurd h (by simp)
    · rw [if_neg hcl] at h
      by_cases hng : ¬ ∀ k, negTol ≤ st.ps k
      · rw [if_pos hng] at h; exact absurd h (by simp)
      · rw [if_neg hng] at h
        have hps : ps = st.ps := by
          injection h with h2
          injection h2 with h3
          exact h3.symm
        rw [hps]
        exact not_not.mp hcl
  · rw [if_neg hdr] at h
    exact absurd h (by simp)

/-- A successful DIIS run satisfies the population closeness that its
return branch asserts. -/
theorem diisRun_pop (C : Ctx n m) (dsize : ℕ) (nearSing : List (List ℚ) → Bool)
    (solveLin : List (List ℚ) → List ℚ → Option (List ℚ)) :
    ∀ (fuel : ℕ) (st : DiisSt n m) (psf : Fin n → ℚ),
      diisRun C dsize nearSing solveLin fuel st = .ok psf →
      iscloseB (popInt C) (sumv psf) (1 / 10 ^ 8) (1 / 10 ^ 5) = true := by
  intro fuel
  induction fuel with
  | zero => intro st psf h; exact absurd h (by simp [diisRun])
  | succ fuel ih =>
    intro st psf h
    rw [diisRun] at h
    rcases hbody : diisBody C dsize nearSing solveLin st with e | v
    · rw [hbody] at h; exact absurd h (by simp)
    · rcases v with ps | st2
      · rw [hbody] at h
        have hps : psf = ps := by
          simp only [] at h
          injection h with h2
          exact h2.symm
        rw [hps]
        exact diisBody_inl C dsize nearSing solveLin st ps hbody
      · rw [hbody] at h
        exact ih st2 psf h

/-- A converged MBIS run satisfies the population closeness that its
return branch asserts (`np.isclose(pop, np.sum(propars[0::2]), atol=1e-4)`,
relative tolerance left at the numpy default `1e-5`). -/
theorem mbisRun_pop (pi : ℚ) (expF sqrtF : ℚ → ℚ)
    (points weights rho : Fin m → ℚ) (threshold cutoff : ℚ)
    (checkOk : List ℚ → (Fin m → ℚ) → Bool) :
    ∀ (fuel : ℕ) (ps : List ℚ) (oldpro : Option (Fin m → ℚ)) (psf : List ℚ),
      mbisRun pi expF sqrtF points weights rho threshold cutoff checkOk
        fuel ps oldpro = .ok (true, psf) →
      iscloseB (mbisPop pi points weights rho) (evensum psf)
        (1 / 10 ^ 4) (1 / 10 ^ 5) = true := by
  intro fuel
  induction fuel with
  | zero =>
    intro ps oldpro psf h
    simp [mbisRun] at h
  | succ fuel ih =>
    intro ps oldpro psf h
    simp only [mbisRun] at h
    by_cases hcv : oldpro.elim big100 (fun op =>
        sqrtF (∑ p, mbisWf pi points p * (op p - mbisPro pi expF points ps p) *
          (op p - mbisPro pi expF points ps p) * weights p)) < threshold
    · rw [if_pos hcv] at h
      by_cases hcl : ¬ iscloseB (mbisPop pi points weights rho)
          (evensum (mbisUpdate pi expF points weights rho cutoff ps))
          (1 / 10 ^ 4) (1 / 10 ^ 5) = true
      · rw [if_pos hcl] at h; exact absurd h (by simp)
      · rw [if_neg hcl] at h
        by_cases hck : ¬ checkOk (mbisUpdate pi expF points weights rho cutoff ps)
            (mbisPro pi expF points ps) = true
        · rw [if_pos hck] at h; exact absurd h (by simp)
        · rw [if_neg hck] at h
          have hps : psf = mbisUpdate pi expF points weights rho cutoff ps := by
            injection h with h2
            exact (congrArg Prod.snd h2).symm
          rw [hps]
          exact not_not.mp hcl
    · rw [if_neg hcv] at h
      exact ih _ _ _ h

/-- Along a Newton run whose entry parameters already satisfy the
`-1e-10` bound, any returned parameters satisfy it as well: every
recursive step re-checks, and the convergence branch returns the entry
parameters. -/
theorem newtonRun_nonneg_aux (C : Ctx n m)
    (solveLin : (Fin n → Fin n → ℚ) → (Fin n → ℚ) → Option (Fin n → ℚ)) :
    ∀ (fuel : ℕ) (ps : Fin n → ℚ) (oldpro : Option (Fin m → ℚ)) (psf : Fin n → ℚ),
      (∀ k, negTol ≤ ps k) →
      newtonRun C solveLin fuel ps oldpro = .ok psf → ∀ k, negTol ≤ psf k := by
  intro fuel
  induction fuel with
  | zero => intro ps oldpro psf _ h; exact absurd h (by simp [newtonRun])
  | succ fuel ih =>
    intro ps oldpro psf hps h
    simp only [newtonRun] at h
    by_cases h1 : ¬ ∀ k p, negTol5 ≤ ps k * C.bsF k p
    · rw [if_pos h1] at h; exact absurd h (by simp)
    · rw [if_neg h1] at h
      by_cases h2 : ¬ ∀ p, negTol ≤ proRaw C ps p
      · rw [if_pos h2] at h; exact absurd h (by simp)
      · rw [if_neg h2] at h
        by_cases hcv : changeOf C oldpro (clipPro C ps) < C.threshold
        · rw [if_pos hcv] at h
          have : psf = ps := by injection h with h3; exact h3.symm
          rw [this]; exact hps
        · rw [if_neg hcv] at h
          rcases hsl : solveLin (newtonGrad C ps) (fun k => -(newtonH C ps k)) with
            _ | delta
          · rw [hsl] at h; exact absurd h (by simp)
          · rw [hsl] at h
            dsimp only at h
            by_cases h3 : ¬ ∀ k, negTol ≤ ps k + delta k
            · rw [if_pos h3] at h; exact absurd h (by simp)
            · rw [if_neg h3] at h
              exact ih _ _ _ (not_not.mp h3) h

/-- A Newton run started as the source starts it (`oldpro = None`) never
returns parameters below the `-1e-10` bound, provided its threshold does
not exceed the `1e100` sentinel of the first iteration. -/
theorem newtonRun_nonneg (C : Ctx n m)
    (solveLin : (Fin n → Fin n → ℚ) → (Fin n → ℚ) → Option (Fin n → ℚ))
    (ht : C.threshold ≤ big100) :
    ∀ (fuel : ℕ) (ps psf : Fin n → ℚ),
      newtonRun C solveLin fuel ps none = .ok psf → ∀ k, negTol ≤ psf k := by
  intro fuel ps psf h
  cases fuel with
  | zero => exact absurd h (by simp [newtonRun])
  | succ fuel =>
    simp only [newtonRun] at h
    by_cases h1 : ¬ ∀ k p, negTol5 ≤ ps k * C.bsF k p
    · rw [if_pos h1] at h; exact absurd h (by simp)
    · rw [if_neg h1] at h
      by_cases h2 : ¬ ∀ p, negTol ≤ proRaw C ps p
      · rw [if_pos h2] at h; exact absurd h (by simp)
      · rw [if_neg h2] at h
        have hcv : ¬ changeOf C none (clipPro C ps) < C.threshold := by
          simp only [changeOf, Option.elim_none]
          intro hlt
          linarith
        rw [if_neg hcv] at h
        rcases hsl : solveLin (newtonGrad C ps) (fun k => -(newtonH C ps k)) with
          _ | delta
        · rw [hsl] at h; exact absurd h (by simp)
        · rw [hsl] at h
          dsimp only at h
          by_cases h3 : ¬ ∀ k, negTol ≤ ps k + delta k
          · rw [if_pos h3] at h; exact absurd h (by simp)
          · rw [if_neg h3] at h
            exact newtonRun_nonneg_aux C solveLin _ _ _ _ (not_not.mp h3) h

/-- The two-entry blocks of the MBIS update give it twice the shell count
as its length. -/
theorem length_flatMap_pair (k : ℕ) (f g : ℕ → ℚ) :
    ((List.range k).flatMap (fun i => [f i, g i])).length = 2 * k := by
  induction k with
  | zero => rfl
  | succ k ih =>
    rw [List.range_succ, List.flatMap_append, List.length_append, ih]
    simp [Nat.mul_succ]

/-- The MBIS update always produces `2 * (len / 2)` entries. -/
theorem mbisUpdate_length (pi : ℚ) (expF : ℚ → ℚ)
    (points weights rho : Fin m → ℚ) (cutoff : ℚ) (ps : List ℚ) :
    (mbisUpdate pi expF points weights rho cutoff ps).length = 2 * (ps.length / 2) := by
  unfold mbisUpdate
  exact length_flatMap_pair _ _ _

/-- Any MBIS run on an even-length parameter vector returns a vector of
the same length: the shell count is preserved by every inner iteration. -/
theorem mbisRun_length (pi : ℚ) (expF sqrtF : ℚ → ℚ)
    (points weights rho : Fin m → ℚ) (threshold cutoff : ℚ)
    (checkOk : List ℚ → (Fin m → ℚ) → Bool) :
    ∀ (fuel : ℕ) (ps : List ℚ) (oldpro : Option (Fin m → ℚ)) (b : Bool)
      (psf : List ℚ), 2 ∣ ps.length →
      mbisRun pi expF sqrtF points weights rho threshold cutoff checkOk
        fuel ps oldpro = .ok (b, psf) → psf.length = ps.length := by
  intro fuel
  induction fuel with
  | zero =>
    intro ps oldpro b psf _ h
    simp only [mbisRun] at h
    injection h with h2
    have hsnd : ps = psf := congrArg Prod.snd h2
    rw [← hsnd]
  | succ fuel ih =>
    intro ps oldpro b psf hdvd h
    have hupd : (mbisUpdate pi expF points weights rho cutoff ps).length =
        ps.length := by
      rw [mbisUpdate_length, Nat.mul_div_cancel' hdvd]
    simp only [mbisRun] at h
    by_cases hcv : oldpro.elim big100 (fun op =>
        sqrtF (∑ p, mbisWf pi points p * (op p - mbisPro pi expF points ps p) *
          (op p - mbisPro pi expF points ps p) * weights p)) < threshold
    · rw [if_pos hcv] at h
      by_cases hcl : ¬ iscloseB (mbisPop pi points weights rho)
          (evensum (mbisUpdate pi expF points weights rho cutoff ps))
          (1 / 10 ^ 4) (1 / 10 ^ 5) = true
      · rw [if_pos hcl] at h; exact absurd h (by simp)
      · rw [if_neg hcl] at h
        by_cases hck : ¬ checkOk (mbisUpdate pi expF points weights rho cutoff ps)
            (mbisPro pi expF points ps) = true
        · rw [if_pos hck] at h; exact absurd h (by simp)
        · rw [if_neg hck] at h
          injection h with h2
          have hsnd : mbisUpdate pi expF points weights rho cutoff ps = psf :=
            congrArg Prod.snd h2
          rw [← hsnd]
          exact hupd
    · rw [if_neg hcv] at h
      have := ih _ (some (mbisPro pi expF points ps)) b psf
        (by rw [hupd]; exact hdvd) h
      rw [this, hupd]

/-- C3: the claim states that the damped SC solver blends 90% of the
freshly updated amplitude with 10% of the previous iterate.  The source
line `propars = propars + 0.9 * (-propars + oldprapars)` instead keeps
only 10% of the fresh SC update and mixes in 90% of `oldprapars`, the
copy of the warm-start amplitudes taken once before the loop and never
reassigned.  This theorem proves the amended statement: every damped
iteration produces `0.1 * scUpdate + 0.9 * initial`, and every value the
damped loop returns is of exactly that form. -/
theorem C3_damped_sc_blend :
    (∀ (n m : ℕ) (C : Ctx n m) (p0 ps : Fin n → ℚ) (k : Fin n),
      dampStep C p0 ps k = 1 / 10 * scUpd C ps k + 9 / 10 * p0 k) ∧
    (∀ (n m : ℕ) (C : Ctx n m) (p0 : Fin n → ℚ) (fuel : ℕ) (ps : Fin n → ℚ)
      (oldpro : Option (Fin m → ℚ)) (r : Fin n → ℚ),
      dampRun C p0 fuel ps oldpro = .ok r → ∃ q, r = dampStep C p0 q) := by
  constructor
  · intro n m C p0 ps k
    unfold dampStep
    ring
  · intro n m C p0 fuel
    induction fuel with
    | zero => intro ps oldpro r h; exact absurd h (by simp [dampRun])
    | succ fuel ih =>
      intro ps oldpro r h
      simp only [dampRun] at h
      by_cases hcv : changeOf C oldpro (clipPro C ps) < C.threshold
      · rw [if_pos hcv] at h
        injection h with h2
        exact ⟨ps, h2.symm⟩
      · rw [if_neg hcv] at h
        exact ih _ _ _ h

/-- C3 counterexample: at a concrete one-shell input the damped iteration
produces amplitude 3 while the spec's "90% new / 10% previous" blend
would produce 11. -/
theorem C3_damped_sc_blend_cex :
    dampStep exCtxA
      (fun _ => 2) (fun _ => 2) = (fun _ => (3 : ℚ)) ∧
    blendSpec90new (scUpd exCtxA (fun _ => 2)) (fun _ => 2) ≠
      (fun _ => (3 : ℚ)) := by
  constructor
  · funext k
    norm_num [dampStep, scUpd, exCtxA, rint2, wf, rc, clipPro, proRaw, qsmall, rbig,
      Fin.sum_univ_one]
  · intro h
    have h0 := congrFun h 0
    norm_num [blendSpec90new, scUpd, exCtxA, rint2, wf, rc, clipPro, proRaw, qsmall,
      rbig, Fin.sum_univ_one] at h0

/-- C3 witness: a concrete damped run converges and its returned value is
a damped-step image. -/
theorem C3_damped_sc_blend_witness :
    dampRun exCtxA
      (fun _ => 2) 3 (fun _ => 2) none = .ok (fun _ => 3) ∧
    ∃ q, (fun _ : Fin 1 => (3 : ℚ)) =
      dampStep exCtxA
        (fun _ => 2) q := by
  have hrun : dampRun exCtxA (fun _ => 2) 3 (fun _ => 2) none =
      .ok (fun _ => 3) := by
    norm_num [dampRun, dampStep, scUpd, exCtxA, rint2, rint3, wf, rc, clipPro,
      proRaw, changeOf, changeQ, qsmall, rbig, big100, Fin.sum_univ_one, funext_iff]
  exact ⟨hrun, C3_damped_sc_blend.2 1 1 _ _ 3 _ none _ hrun⟩

/-- C7: the claim states that `nshell` and the shell widths are never
modified by any inner-solver iteration.  That holds for the shell COUNT
(and for the GISA/LISA exponents, which the solvers only read), but the
MBIS inner solver re-optimizes the widths `propars[2*i+1] = 3*m0/m1` at
every iteration.  Amended statement proved here: the MBIS inner update
and the whole MBIS inner run preserve the number of shells (the parameter
vector length), while the widths themselves are update targets (see the
counterexample). -/
theorem C7_nshell_fixed :
    (∀ (m : ℕ) (pi : ℚ) (expF : ℚ → ℚ) (points weights rho : Fin m → ℚ)
      (cutoff : ℚ) (ps : List ℚ), 2 ∣ ps.length →
      (mbisUpdate pi expF points weights rho cutoff ps).length = ps.length) ∧
    (∀ (m : ℕ) (pi : ℚ) (expF sqrtF : ℚ → ℚ) (points weights rho : Fin m → ℚ)
      (threshold cutoff : ℚ) (checkOk : List ℚ → (Fin m → ℚ) → Bool)
      (fuel : ℕ) (ps : List ℚ) (oldpro : Option (Fin m → ℚ)) (b : Bool)
      (psf : List ℚ), 2 ∣ ps.length →
      mbisRun pi expF sqrtF points weights rho threshold cutoff checkOk
        fuel ps oldpro = .ok (b, psf) → psf.length = ps.length) := by
  constructor
  · intro m pi expF points weights rho cutoff ps hdvd
    rw [mbisUpdate_length, Nat.mul_div_cancel' hdvd]
  · intro m pi expF sqrtF points weights rho threshold cutoff checkOk fuel ps
      oldpro b psf hdvd h
    exact mbisRun_length pi expF sqrtF points weights rho threshold cutoff
      checkOk fuel ps oldpro b psf hdvd h

/-- C7 counterexample: one concrete MBIS inner iteration rewrites the
width stored at odd position 1 from 1 to 3 - shell widths ARE modified by
the inner solver. -/
theorem C7_nshell_fixed_cex :
    mbisUpdate 3 (fun _ => 1) (fun _ : Fin 1 => 1) (fun _ => 1) (fun _ => 1)
      (1 / 10 ^ 15) [24, 1] = [12, 3] ∧
    ([12, 3].getD 1 (0 : ℚ) ≠ [24, 1].getD 1 (0 : ℚ)) := by
  constructor
  · norm_num [mbisUpdate, mbisM0, mbisM1, mbisTerm, mbisPro, mbisQuot, mbisWf,
      List.range_succ, Fin.sum_univ_one, Finset.sum_range_succ]
  · norm_num [List.getD]

/-- C7 witness: the concrete MBIS update of the counterexample input
preserves the two-entry length, and a concrete converged MBIS run returns
a vector of the warm-start's length. -/
theorem C7_nshell_fixed_witness :
    (2 : ℕ) ∣ ([24, 1] : List ℚ).length ∧
    (mbisUpdate 3 (fun _ => 1) (fun _ : Fin 1 => 1) (fun _ => 1) (fun _ => 1)
      (1 / 10 ^ 15) [24, 1]).length = ([24, 1] : List ℚ).length := by
  exact ⟨by norm_num, C7_nshell_fixed.1 1 3 (fun _ => 1) (fun _ => 1) (fun _ => 1)
    (fun _ => 1) (1 / 10 ^ 15) [24, 1] (by norm_num)⟩

/-- C8: the claim states that after each per-atom update the charge
equals the pseudo-charge minus the population of the atom's PRO-ATOM
density (the fitted model `sum c_k g_k`, per the glossary).  The source
instead subtracts the population of the atom's SPHERICAL-AVERAGE target
density, independently of whatever the solver returned.  Amended
statement proved here: the charge equals
`pseudo - integrate(4*pi*r**2*spherical_average)` and does not depend on
the solver output at all. -/
theorem C8_charge_update :
    (∀ (n m : ℕ) (C : Ctx n m) (solver : (Fin m → ℚ) → (Fin n → ℚ) → Fin n → ℚ)
      (ps : Fin n → ℚ) (pseudo : ℚ),
      (update_propars_atom C solver ps pseudo).2 = pseudo - pseudoPopulation C) ∧
    (∀ (n m : ℕ) (C : Ctx n m)
      (s1 s2 : (Fin m → ℚ) → (Fin n → ℚ) → Fin n → ℚ) (ps1 ps2 : Fin n → ℚ)
      (pseudo : ℚ),
      (update_propars_atom C s1 ps1 pseudo).2 =
        (update_propars_atom C s2 ps2 pseudo).2) := by
  exact ⟨fun _ _ _ _ _ _ => rfl, fun _ _ _ _ _ _ _ _ => rfl⟩

/-- C8 counterexample: a solver output that satisfies the population
equality constraint (its amplitudes sum to `N_a`) still yields a model
pro-atom density whose population (144) differs from the
spherical-average population (12); the charge the code stores is
`pseudo - 12`, not `pseudo - 144`, refuting the claim's reading. -/
theorem C8_charge_update_cex :
    sumv ((update_propars_atom exCtxA (fun _ _ _ => 12) (fun _ => 1) 1).1) =
      popInt exCtxA ∧
    (update_propars_atom exCtxA (fun _ _ _ => 12) (fun _ => 1) 1).2 ≠
      1 - proatomPop exCtxA
        ((update_propars_atom exCtxA (fun _ _ _ => 12) (fun _ => 1) 1).1) := by
  constructor
  · norm_num [update_propars_atom, sumv, popInt, exCtxA, rint2, wf, rc, qsmall,
      rbig, Fin.sum_univ_one]
  · norm_num [update_propars_atom, pseudoPopulation, proatomPop, exCtxA, rint1,
      rint2, wf, rc, qsmall, rbig, Fin.sum_univ_one]


/-- C9: the claim states that cross-atom Hessian entries are zeroed
exactly when the two shells' ATOMS are farther apart than the cutoff.
The code is buggy: `eval_proshells` fills `proshell_centers` with
`centers[a] = coordinates[a, :]` indexed by ATOM instead of by shell, so
shell 1 (owned by atom 0) carries atom 1's coordinate and all shells with
index >= natom carry the zero vector.  At the concrete two-atom geometry
below, the Hessian entry of the shell pair (0, 1) - both shells of atom 0,
true separation 0 - is truncated to zero because the mis-indexed centers
are 20 apart, while the untruncated pairwise integral is 1. -/
theorem C9_hessian_cutoff_bug :
    working_matrix_hess (fun _ : Fin 1 => 1) (fun _ => 1) (fun _ => 1)
      (fun _ _ => (1 : ℚ)) (proshell_centers 2 4 exCoords) 0 1 = 0 ∧
    hessEntryFull (fun _ : Fin 1 => 1) (fun _ => 1) (fun _ => 1)
      (fun _ _ => (1 : ℚ)) (0 : Fin 4) 1 = 1 ∧
    distSq (proshell_centers 2 4 exCoords 0) (proshell_centers 2 4 exCoords 1) =
      400 ∧
    distSq (exCoords 0) (exCoords 0) = 0 := by
  have hc0 : proshell_centers 2 4 exCoords 0 = fun _ => 0 := by
    funext t
    simp only [proshell_centers]
    rw [dif_pos (by norm_num)]
    simp [exCoords, Fin.ext_iff]
  have hc1 : proshell_centers 2 4 exCoords 1 =
      fun t => if t = 0 then 20 else 0 := by
    funext t
    simp only [proshell_centers]
    rw [dif_pos (by norm_num)]
    simp only [exCoords]
    by_cases ht : t = 0
    · rw [ht]; norm_num [Fin.ext_iff]
    · rw [if_neg ht, if_neg (by exact fun hand => ht hand.2)]
  have hds : distSq (proshell_centers 2 4 exCoords 0)
      (proshell_centers 2 4 exCoords 1) = 400 := by
    rw [hc0, hc1]
    norm_num [distSq, Fin.sum_univ_three]
  refine ⟨?_, ?_, hds, ?_⟩
  · unfold working_matrix_hess
    norm_num [hds]
  · norm_num [hessEntryFull, Fin.sum_univ_one]
  · norm_num [distSq, Fin.sum_univ_three]


/-- C10: the claim states the property for every atomic number n >= 1;
the code raises an IndexError into the 7-entry `nel_in_shell` table for
n >= 119 (see the counterexample), so the statement is amended to
1 <= n <= 118.  For those, `_get_initial_mbis_propars` returns a vector
of length `2 * nshell`, its widths at the odd positions are strictly
positive (given that the float power of a positive base is positive), and
its even-position populations sum exactly to n. -/
theorem C10_initial_mbis_propars (rpowF : ℚ → ℚ → ℚ) (number : ℕ)
    (hlow : 1 ≤ number) (hhigh : number ≤ 118)
    (hrp : ∀ x y, 0 < x → 0 < rpowF x y) :
    ∃ ps, get_initial_mbis_propars rpowF number = some ps ∧
      ps.length = 2 * get_nshell number ∧
      (∀ i < get_nshell number, 0 < ps.getD (2 * i + 1) 0) ∧
      evensum ps = number := by
  have hn0 : (0 : ℚ) < (number : ℚ) := by
    exact_mod_cast Nat.pos_of_ne_zero (by omega)
  rcases le_or_lt number 2 with hb0 | hb0
  · -- 1 ≤ number ≤ 2
      have hns : get_nshell number = 1 := by
        unfold get_nshell nobleList
        simp only [List.countP_cons, List.countP_nil, decide_eq_true_eq]
        rw [if_neg (by omega : ¬ 2 < number),
          if_neg (by omega : ¬ 10 < number),
          if_neg (by omega : ¬ 18 < number),
          if_neg (by omega : ¬ 36 < number),
          if_neg (by omega : ¬ 54 < number),
          if_neg (by omega : ¬ 86 < number),
          if_neg (by omega : ¬ 118 < number)]
      have hform : get_initial_mbis_propars rpowF number =
          some [(number : ℚ), 2 * (number : ℚ)] := by
        unfold get_initial_mbis_propars
        rw [hns]
        norm_num [nelInShell, List.range_succ]
      refine ⟨_, hform, by rw [hns]; rfl, ?_, ?_⟩
      · rw [hns]
        intro i hi
        interval_cases i
        · norm_num [List.getD_cons_succ, List.getD_cons_zero]
          all_goals omega
      · simp only [evensum]
        ring
  rcases le_or_lt number 10 with hb1 | hb1
  · -- 3 ≤ number ≤ 10
      have hns : get_nshell number = 2 := by
        unfold get_nshell nobleList
        simp only [List.countP_cons, List.countP_nil, decide_eq_true_eq]
        rw [if_pos (by omega : 2 < number),
          if_neg (by omega : ¬ 10 < number),
          if_neg (by omega : ¬ 18 < number),
          if_neg (by omega : ¬ 36 < number),
          if_neg (by omega : ¬ 54 < number),
          if_neg (by omega : ¬ 86 < number),
          if_neg (by omega : ¬ 118 < number)]
      obtain ⟨a, ha, hform⟩ : ∃ a, 0 < a ∧
          get_initial_mbis_propars rpowF number = some [2,
            2 * (number : ℚ) * a ^ 0,
            (number : ℚ) - 2,
            2 * (number : ℚ) * a ^ 1] :=
        ⟨rpowF (2 / (2 * (number : ℚ))) (1 / ((2 : ℚ) - 1)),
          hrp _ _ (by positivity), by
            unfold get_initial_mbis_propars
            rw [hns]
            norm_num [nelInShell, List.range_succ]⟩
      refine ⟨_, hform, by rw [hns]; rfl, ?_, ?_⟩
      · rw [hns]
        intro i hi
        interval_cases i
        · norm_num [List.getD_cons_succ, List.getD_cons_zero]
          all_goals first | omega | linarith | positivity
        · norm_num [List.getD_cons_succ, List.getD_cons_zero]
          all_goals first | omega | linarith | positivity
      · simp only [evensum]
        ring
  rcases le_or_lt number 18 with hb2 | hb2
  · -- 11 ≤ number ≤ 18
      have hns : get_nshell number = 3 := by
        unfold get_nshell nobleList
        simp only [List.countP_cons, List.countP_nil, decide_eq_true_eq]
        rw [if_pos (by omega : 2 < number),
          if_pos (by omega : 10 < number),
          if_neg (by omega : ¬ 18 < number),
          if_neg (by omega : ¬ 36 < number),
          if_neg (by omega : ¬ 54 < number),
          if_neg (by omega : ¬ 86 < number),
          if_neg (by omega : ¬ 118 < number)]
      obtain ⟨a, ha, hform⟩ : ∃ a, 0 < a ∧
          get_initial_mbis_propars rpowF number = some [2,
            2 * (number : ℚ) * a ^ 0,
            8,
            2 * (number : ℚ) * a ^ 1,
            (number : ℚ) - 10,
            2 * (number : ℚ) * a ^ 2] :=
        ⟨rpowF (2 / (2 * (number : ℚ))) (1 / ((3 : ℚ) - 1)),
          hrp _ _ (by positivity), by
            unfold get_initial_mbis_propars
            rw [hns]
            norm_num [nelInShell, List.range_succ]⟩
      refine ⟨_, hform, by rw [hns]; rfl, ?_, ?_⟩
      · rw [hns]
        intro i hi
        interval_cases i
        · norm_num [List.getD_cons_succ, List.getD_cons_zero]
          all_goals first | omega | linarith | positivity
        · norm_num [List.getD_cons_succ, List.getD_cons_zero]
          all_goals first | omega | linarith | positivity
        · norm_num [List.getD_cons_succ, List.getD_cons_zero]
          all_goals first | omega | linarith | positivity
      · simp only [evensum]
        ring
  rcases le_or_lt number 36 with hb3 | hb3
  · -- 19 ≤ number ≤ 36
      have hns : get_nshell number = 4 := by
        unfold get_nshell nobleList
        simp only [List.countP_cons, List.countP_nil, decide_eq_true_eq]
        rw [if_pos (by omega : 2 < number),
          if_pos (by omega : 10 < number),
          if_pos (by omega : 18 < number),
          if_neg (by omega : ¬ 36 < number),
          if_neg (by omega : ¬ 54 < number),
          if_neg (by omega : ¬ 86 < number),
          if_neg (by omega : ¬ 118 < number)]
      obtain ⟨a, ha, hform⟩ : ∃ a, 0 < a ∧
          get_initial_mbis_propars rpowF number = some [2,
            2 * (number : ℚ) * a ^ 0,
            8,
            2 * (number : ℚ) * a ^ 1,
            8,
            2 * (number : ℚ) * a ^ 2,
            (number : ℚ) - 18,
            2 * (number : ℚ) * a ^ 3] :=
        ⟨rpowF (2 / (2 * (number : ℚ))) (1 / ((4 : ℚ) - 1)),
          hrp _ _ (by positivity), by
            unfold get_initial_mbis_propars
            rw [hns]
            norm_num [nelInShell, List.range_succ]⟩
      refine ⟨_, hform, by rw [hns]; rfl, ?_, ?_⟩
      · rw [hns]
        intro i hi
        interval_cases i
        · norm_num [List.getD_cons_succ, List.getD_cons_zero]
          all_goals first | omega | linarith | positivity
        · norm_num [List.getD_cons_succ, List.getD_cons_zero]
          all_goals first | omega | linarith | positivity
        · norm_num [List.getD_cons_succ, List.getD_cons_zero]
          all_goals first | omega | linarith | positivity
        · norm_num [List.getD_cons_succ, List.getD_cons_zero]
          all_goals first | omega | linarith | positivity
      · simp only [evensum]
        ring
  rcases le_or_lt number 54 with hb4 | hb4
  · -- 37 ≤ number ≤ 54
      have hns : get_nshell number = 5 := by
        unfold get_nshell nobleList
        simp only [List.countP_cons, List.countP_nil, decide_eq_true_eq]
        rw [if_pos (by omega : 2 < number),
          if_pos (by omega : 10 < number),
          if_pos (by omega : 18 < number),
          if_pos (by omega : 36 < number),
          if_neg (by omega : ¬ 54 < number),
          if_neg (by omega : ¬ 86 < number),
          if_neg (by omega : ¬ 118 < number)]
      obtain ⟨a, ha, hform⟩ : ∃ a, 0 < a ∧
          get_initial_mbis_propars rpowF number = some [2,
            2 * (number : ℚ) * a ^ 0,
            8,
            2 * (number : ℚ) * a ^ 1,
            8,
            2 * (number : ℚ) * a ^ 2,
            18,
            2 * (number : ℚ) * a ^ 3,
            (number : ℚ) - 36,
            2 * (number : ℚ) * a ^ 4] :=
        ⟨rpowF (2 / (2 * (number : ℚ))) (1 / ((5 : ℚ) - 1)),
          hrp _ _ (by positivity), by
            unfold get_initial_mbis_propars
            rw [hns]
            norm_num [nelInShell, List.range_succ]⟩
      refine ⟨_, hform, by rw [hns]; rfl, ?_, ?_⟩
      · rw [hns]
        intro i hi
        interval_cases i
        · norm_num [List.getD_cons_succ, List.getD_cons_zero]
          all_goals first | omega | linarith | positivity
        · norm_num [List.getD_cons_succ, List.getD_cons_zero]
          all_goals first | omega | linarith | positivity
        · norm_num [List.getD_cons_succ, List.getD_cons_zero]
          all_goals first | omega | linarith | positivity
        · norm_num [List.getD_cons_succ, List.getD_cons_zero]
          all_goals first | omega | linarith | positivity
        · norm_num [List.getD_cons_succ, List.getD_cons_zero]
          all_goals first | omega | linarith | positivity
      · simp only [evensum]
        ring
  rcases le_or_lt number 86 with hb5 | hb5
  · -- 55 ≤ number ≤ 86
      have hns : get_nshell number = 6 := by
        unfold get_nshell nobleList
        simp only [List.countP_cons, List.countP_nil, decide_eq_true_eq]
        rw [if_pos (by omega : 2 < number),
          if_pos (by omega : 10 < number),
          if_pos (by omega : 18 < number),
          if_pos (by omega : 36 < number),
          if_pos (by omega : 54 < number),
          if_neg (by omega : ¬ 86 < number),
          if_neg (by omega : ¬ 118 < number)]
      obtain ⟨a, ha, hform⟩ : ∃ a, 0 < a ∧
          get_initial_mbis_propars rpowF number = some [2,
            2 * (number : ℚ) * a ^ 0,
            8,
            2 * (number : ℚ) * a ^ 1,
            8,
            2 * (number : ℚ) * a ^ 2,
            18,
            2 * (number : ℚ) * a ^ 3,
            18,
            2 * (number : ℚ) * a ^ 4,
            (number : ℚ) - 54,
            2 * (number : ℚ) * a ^ 5] :=
        ⟨rpowF (2 / (2 * (number : ℚ))) (1 / ((6 : ℚ) - 1)),
          hrp _ _ (by positivity), by
            unfold get_initial_mbis_propars
            rw [hns]
            norm_num [nelInShell, List.range_succ]⟩
      refine ⟨_, hform, by rw [hns]; rfl, ?_, ?_⟩
      · rw [hns]
        intro i hi
        interval_cases i
        · norm_num [List.getD_cons_succ, List.getD_cons_zero]
          all_goals first | omega | linarith | positivity
        · norm_num [List.getD_cons_succ, List.getD_cons_zero]
          all_goals first | omega | linarith | positivity
        · norm_num [List.getD_cons_succ, List.getD_cons_zero]
          all_goals first | omega | linarith | positivity
        · norm_num [List.getD_cons_succ, List.getD_cons_zero]
          all_goals first | omega | linarith | positivity
        · norm_num [List.getD_cons_succ, List.getD_cons_zero]
          all_goals first | omega | linarith | positivity
        · norm_num [List.getD_cons_succ, List.getD_cons_zero]
          all_goals first | omega | linarith | positivity
      · simp only [evensum]
        ring
  · -- 87 ≤ number ≤ 118
      have hns : get_nshell number = 7 := by
        unfold get_nshell nobleList
        simp only [List.countP_cons, List.countP_nil, decide_eq_true_eq]
        rw [if_pos (by omega : 2 < number),
          if_pos (by omega : 10 < number),
          if_pos (by omega : 18 < number),
          if_pos (by omega : 36 < number),
          if_pos (by omega : 54 < number),
          if_pos (by omega : 86 < number),
          if_neg (by omega : ¬ 118 < number)]
      obtain ⟨a, ha, hform⟩ : ∃ a, 0 < a ∧
          get_initial_mbis_propars rpowF number = some [2,
            2 * (number : ℚ) * a ^ 0,
            8,
            2 * (number : ℚ) * a ^ 1,
            8,
            2 * (number : ℚ) * a ^ 2,
            18,
            2 * (number : ℚ) * a ^ 3,
            18,
            2 * (number : ℚ) * a ^ 4,
            32,
            2 * (number : ℚ) * a ^ 5,
            (number : ℚ) - 86,
            2 * (number : ℚ) * a ^ 6] :=
        ⟨rpowF (2 / (2 * (number : ℚ))) (1 / ((7 : ℚ) - 1)),
          hrp _ _ (by positivity), by
            unfold get_initial_mbis_propars
            rw [hns]
            norm_num [nelInShell, List.range_succ]⟩
      refine ⟨_, hform, by rw [hns]; rfl, ?_, ?_⟩
      · rw [hns]
        intro i hi
        interval_cases i
        · norm_num [List.getD_cons_succ, List.getD_cons_zero]
          all_goals first | omega | linarith | positivity
        · norm_num [List.getD_cons_succ, List.getD_cons_zero]
          all_goals first | omega | linarith | positivity
        · norm_num [List.getD_cons_succ, List.getD_cons_zero]
          all_goals first | omega | linarith | positivity
        · norm_num [List.getD_cons_succ, List.getD_cons_zero]
          all_goals first | omega | linarith | positivity
        · norm_num [List.getD_cons_succ, List.getD_cons_zero]
          all_goals first | omega | linarith | positivity
        · norm_num [List.getD_cons_succ, List.getD_cons_zero]
          all_goals first | omega | linarith | positivity
        · norm_num [List.getD_cons_succ, List.getD_cons_zero]
          all_goals first | omega | linarith | positivity
      · simp only [evensum]
        ring


/-- C10 counterexample: at atomic number 119 (`nshell = 8`) the table
access `nel_in_shell[7]` is out of bounds and the function fails instead
of returning the claimed vector. -/
theorem C10_initial_mbis_propars_cex :
    get_initial_mbis_propars (fun x _ => x) 119 = none := by
  have hns : get_nshell 119 = 8 := by
    unfold get_nshell nobleList
    norm_num
  unfold get_initial_mbis_propars
  rw [hns]
  norm_num [nelInShell]

/-- C10 witness: at atomic number 6 (carbon, two shells) the initial
parameter vector exists with the claimed length, positive widths and an
even-position sum of exactly 6. -/
theorem C10_initial_mbis_propars_witness :
    (1 ≤ 6 ∧ 6 ≤ 118 ∧ (∀ x y : ℚ, 0 < x → 0 < (fun x _ => x) x y)) ∧
    ∃ ps, get_initial_mbis_propars (fun x _ => x) 6 = some ps ∧
      ps.length = 2 * get_nshell 6 ∧
      (∀ i < get_nshell 6, 0 < ps.getD (2 * i + 1) 0) ∧
      evensum ps = 6 := by
  refine ⟨⟨by norm_num, by norm_num, fun x y hx => hx⟩, ?_⟩
  have h := C10_initial_mbis_propars (fun x _ => x) 6 (by norm_num) (by norm_num)
    (fun x y hx => hx)
  simpa using h


/-- C4: the constrained-quadratic-program solver of gisa.py assembles the
Gram matrix exactly as the spec formula
`S_kl = 2 (a_k a_l)^1.5 / pi^1.5 / (a_k+a_l)^1.5` prescribes, the linear
term `b_k = 2 * integrate(4*pi*r^2, g_k, rho)`, and constraint data whose
feasible set is exactly `sum c = N_a` (one equality, `meq = 1`) together
with `c_k >= 0`; the external `quadprog.solve_qp` is invoked once, with no
inner iteration (the definition is a single call). -/
theorem C4_quadprog_program :
    (∀ (n m : ℕ)
      (solveQP : (Fin n → Fin n → ℚ) → (Fin n → ℚ) → (Fin n → Fin (n + 1) → ℚ) →
        (Fin (n + 1) → ℚ) → ℕ → (Fin n → ℚ))
      (pow32 : ℚ → ℚ) (C : Ctx n m) (alphas : Fin n → ℚ),
      constrained_least_squares_quadprog solveQP pow32 C alphas =
        solveQP (gramSpec pow32 C.pi alphas) (quadprogVecB C) (quadprogMatC n)
          (quadprogVecC C) 1) ∧
    (∀ (n : ℕ) (pow32 : ℚ → ℚ) (pi : ℚ) (alphas : Fin n → ℚ) (k l : Fin n),
      gramS pow32 pi alphas k l = gramSpec pow32 pi alphas k l) ∧
    (∀ (n m : ℕ) (C : Ctx n m) (x : Fin n → ℚ),
      quadprogFeasible (quadprogMatC n) (quadprogVecC C) 1 x ↔
        ((∑ k, x k) = popInt C ∧ ∀ k, 0 ≤ x k)) := by
  have hcol0 : ∀ (n : ℕ) (x : Fin n → ℚ),
      ∑ i, quadprogMatC n i 0 * x i = ∑ i, x i := by
    intro n x
    refine Finset.sum_congr rfl fun i _ => ?_
    simp [quadprogMatC]
  have hcolS : ∀ (n : ℕ) (x : Fin n → ℚ) (t : Fin n),
      ∑ i, quadprogMatC n i t.succ * x i = x t := by
    intro n x t
    rw [Finset.sum_eq_single t]
    · simp [quadprogMatC, Fin.ext_iff]
    · intro i _ hit
      have hti : ¬ (t : ℕ) = (i : ℕ) := fun h => hit (Fin.ext h.symm)
      simp [quadprogMatC, Fin.ext_iff, Fin.val_succ, hti]
    · intro habs
      exact absurd (Finset.mem_univ t) habs
  refine ⟨?_, ?_, ?_⟩
  · intro n m solveQP pow32 C alphas
    have hg : gramS pow32 C.pi alphas = gramSpec pow32 C.pi alphas := by
      funext k l
      unfold gramS gramSpec
      ring
    unfold constrained_least_squares_quadprog
    rw [hg]
  · intro n pow32 pi alphas k l
    unfold gramS gramSpec
    ring
  · intro n m C x
    constructor
    · rintro ⟨heq, hineq⟩
      constructor
      · have h0 := heq 0 (by norm_num)
        rw [hcol0] at h0
        rw [h0]
        simp [quadprogVecC]
      · intro k
        have hk := hineq k.succ (by simp [Fin.val_succ])
        rw [hcolS] at hk
        have hv : quadprogVecC C k.succ = 0 := by
          have : (k.succ : Fin (n + 1)) ≠ 0 := by
            simp [Fin.ext_iff]
          simp [quadprogVecC, this]
        rw [hv] at hk
        exact hk
    · rintro ⟨hsum, hpos⟩
      constructor
      · intro j hj
        have hj0 : j = 0 := Fin.ext (by simpa using Nat.lt_one_iff.mp hj)
        rw [hj0, hcol0, hsum]
        simp [quadprogVecC]
      · intro j hj
        rcases Fin.eq_zero_or_eq_succ j with h0 | ⟨t, ht⟩
        · rw [h0] at hj
          simp at hj
        · rw [ht, hcolS]
          have hv : quadprogVecC C t.succ = 0 := by
            have : (t.succ : Fin (n + 1)) ≠ 0 := by
              simp [Fin.ext_iff]
            simp [quadprogVecC, this]
          rw [hv]
          exact hpos t


/-- C1: population conservation at convergence, for the three cited
solver variants.  (i) Whenever the plain SC loop returns and the clip
floor never bites along its trace, the returned amplitudes sum EXACTLY to
the integrated target population, so the difference beats every positive
tolerance.  (ii) The DIIS loop returns only after its
`assert np.isclose(N_a, np.sum(propars), rtol=1e-5)` succeeded.  (iii) The
MBIS loop returns through its converged branch only after
`np.isclose(pop, np.sum(propars[0::2]), atol=1e-4)` succeeded. -/
theorem C1_population_conservation :
    (∀ (n m : ℕ) (C : Ctx n m) (fuel : ℕ) (ps psf : Fin n → ℚ) (tol : ℚ),
      0 < tol → scRun C fuel ps none = .ok psf → scOkB C fuel ps none = true →
      |sumv psf - popInt C| < tol) ∧
    (∀ (n m : ℕ) (C : Ctx n m) (dsize : ℕ) (nearSing : List (List ℚ) → Bool)
      (solveLin : List (List ℚ) → List ℚ → Option (List ℚ)) (fuel : ℕ)
      (st : DiisSt n m) (psf : Fin n → ℚ),
      diisRun C dsize nearSing solveLin fuel st = .ok psf →
      |popInt C - sumv psf| ≤ 1 / 10 ^ 8 + 1 / 10 ^ 5 * |sumv psf|) ∧
    (∀ (m : ℕ) (pi : ℚ) (expF sqrtF : ℚ → ℚ) (points weights rho : Fin m → ℚ)
      (threshold cutoff : ℚ) (checkOk : List ℚ → (Fin m → ℚ) → Bool)
      (fuel : ℕ) (ps : List ℚ) (oldpro : Option (Fin m → ℚ)) (psf : List ℚ),
      mbisRun pi expF sqrtF points weights rho threshold cutoff checkOk
        fuel ps oldpro = .ok (true, psf) →
      |mbisPop pi points weights rho - evensum psf| ≤
        1 / 10 ^ 4 + 1 / 10 ^ 5 * |evensum psf|) := by
  refine ⟨?_, ?_, ?_⟩
  · intro n m C fuel ps psf tol htol hrun hok
    rw [scRun_pop C fuel ps none psf hrun hok]
    simpa using htol
  · intro n m C dsize nearSing solveLin fuel st psf hrun
    have h := diisRun_pop C dsize nearSing solveLin fuel st psf hrun
    simpa [iscloseB] using h
  · intro m pi expF sqrtF points weights rho threshold cutoff checkOk fuel ps
      oldpro psf hrun
    have h := mbisRun_pop pi expF sqrtF points weights rho threshold cutoff
      checkOk fuel ps oldpro psf hrun
    simpa [iscloseB] using h

/-- C1 witness: concrete converged runs of the three variants, with their
population properties obtained from the claim theorem. -/
theorem C1_population_conservation_witness :
    ((0 : ℚ) < 1 ∧
      scRun exCtxA 3 (fun _ => 1) none = .ok (fun _ => 12) ∧
      scOkB exCtxA 3 (fun _ => 1) none = true ∧
      |sumv (fun _ : Fin 1 => (12 : ℚ)) - popInt exCtxA| < 1) ∧
    (diisRun exCtxW 8 (fun _ => false) (fun _ _ => none) 1
        ⟨0, fun _ => 12, none, [], [], [], false⟩ = .ok (fun _ => 12) ∧
      |popInt exCtxW - sumv (fun _ : Fin 1 => (12 : ℚ))| ≤
        1 / 10 ^ 8 + 1 / 10 ^ 5 * |sumv (fun _ : Fin 1 => (12 : ℚ))|) ∧
    (mbisRun 3 (fun _ => 1) (fun _ => 0) (fun _ : Fin 1 => 1) (fun _ => 1)
        (fun _ => 1) (10 ^ 101) (1 / 10 ^ 15) (fun _ _ => true) 1 [24, 1] none =
        .ok (true, [12, 3]) ∧
      |mbisPop 3 (fun _ : Fin 1 => 1) (fun _ => 1) (fun _ => 1) -
          evensum [12, 3]| ≤ 1 / 10 ^ 4 + 1 / 10 ^ 5 * |evensum [12, 3]|) := by
  have hsc : scRun exCtxA 3 (fun _ => 1) none = .ok (fun _ => 12) := by
    norm_num [scRun, scUpd, exCtxA, rint2, rint3, wf, rc, clipPro, proRaw,
      changeOf, changeQ, qsmall, rbig, big100, Fin.sum_univ_one, funext_iff]
  have hsok : scOkB exCtxA 3 (fun _ => 1) none = true := by
    norm_num [scOkB, scUpd, exCtxA, rint2, rint3, wf, rc, clipPro, proRaw,
      changeOf, changeQ, qsmall, rbig, big100, Fin.sum_univ_one,
      Fin.forall_fin_one]
  have hres : diisResid exCtxW ⟨0, fun _ => 12, none, [], [], [], false⟩ =
      fun _ => 12 := by
    norm_num [diisResid, exCtxW, clipPro, proRaw, qsmall, Fin.sum_univ_one,
      funext_iff]
  have hdrms : exCtxW.sqrtF (rint3 exCtxW (wf exCtxW)
      (diisResid exCtxW ⟨0, fun _ => 12, none, [], [], [], false⟩)
      (diisResid exCtxW ⟨0, fun _ => 12, none, [], [], [], false⟩)) <
      exCtxW.threshold := by
    rw [hres]
    norm_num [exCtxW, rint3, wf, rc, qsmall, rbig, Fin.sum_univ_one]
  have hbody : diisBody exCtxW 8 (fun _ => false) (fun _ _ => none)
      ⟨0, fun _ => 12, none, [], [], [], false⟩ = .ok (.inl (fun _ => 12)) := by
    simp only [diisBody]
    rw [if_pos hdrms]
    norm_num [iscloseB, popInt, sumv, exCtxW, rint2, wf, rc, qsmall, rbig,
      negTol, Fin.sum_univ_one, Fin.forall_fin_one, funext_iff]
  have hdiis : diisRun exCtxW 8 (fun _ => false) (fun _ _ => none) 1
      ⟨0, fun _ => 12, none, [], [], [], false⟩ = .ok (fun _ => 12) := by
    simp only [diisRun, hbody]
  have hmbis : mbisRun 3 (fun _ => 1) (fun _ => 0) (fun _ : Fin 1 => 1)
      (fun _ => 1) (fun _ => 1) (10 ^ 101) (1 / 10 ^ 15) (fun _ _ => true) 1
      [24, 1] none = .ok (true, [12, 3]) := by
    norm_num [mbisRun, mbisUpdate, mbisM0, mbisM1, mbisTerm, mbisPro, mbisQuot,
      mbisWf, mbisPop, evensum, iscloseB, big100, List.range_succ,
      Fin.sum_univ_one, Finset.sum_range_succ]
  refine ⟨⟨by norm_num, hsc, hsok, ?_⟩, ⟨hdiis, ?_⟩, ⟨hmbis, ?_⟩⟩
  · exact C1_population_conservation.1 1 1 exCtxA 3 (fun _ => 1) (fun _ => 12) 1
      (by norm_num) hsc hsok
  · exact C1_population_conservation.2.1 1 1 exCtxW 8 (fun _ => false)
      (fun _ _ => none) 1 ⟨0, fun _ => 12, none, [], [], [], false⟩
      (fun _ => 12) hdiis
  · exact C1_population_conservation.2.2 1 3 (fun _ => 1) (fun _ => 0)
      (fun _ => 1) (fun _ => 1) (fun _ => 1) (10 ^ 101) (1 / 10 ^ 15)
      (fun _ _ => true) 1 [24, 1] none [12, 3] hmbis


/-- C2: the claim states that EVERY inner solver raises a non-convergence
error when its iteration cap is exhausted.  That is true for plain SC and
damped SC (which raise), and DIIS/DIIS2/Newton never return at
exhaustion; but the MBIS inner solver logs a warning and RETURNS the last
iterate, and the SC-plus-LISA1 variant instead calls the LISA-1 fallback
(a call that raises a `TypeError` because it omits the `bs_helper`
argument).  Amended statement proved here, under hypotheses that make the
convergence test unfireable (non-negative square root, non-positive
threshold): SC and damped SC end in the non-convergence error for every
fuel; Newton, DIIS and DIIS2 always end in an error; SC-plus-LISA1 ends
in the arity TypeError; and MBIS returns `ok` with its last iterate. -/
theorem C2_cap_behavior :
    (∀ (n m : ℕ) (C : Ctx n m), 0 ≤ C.pi → (∀ p, 0 ≤ C.weights p) →
      (∀ p, 0 ≤ C.rho p) → (∀ k p, 0 ≤ C.bsF k p) → (∀ x, 0 ≤ C.sqrtF x) →
      C.threshold ≤ 0 → ∀ (fuel : ℕ) (ps : Fin n → ℚ), (∀ k, 0 ≤ ps k) →
      ∀ oldpro, scRun C fuel ps oldpro = .error .nonConvergence) ∧
    (∀ (n m : ℕ) (C : Ctx n m) (p0 : Fin n → ℚ), (∀ x, 0 ≤ C.sqrtF x) →
      C.threshold ≤ 0 → ∀ (fuel : ℕ) (ps : Fin n → ℚ) oldpro,
      dampRun C p0 fuel ps oldpro = .error .nonConvergence) ∧
    (∀ (n m : ℕ) (C : Ctx n m) (dsize : ℕ) (nearSing : List (List ℚ) → Bool)
      (solveLin : List (List ℚ) → List ℚ → Option (List ℚ)),
      (∀ x, 0 ≤ C.sqrtF x) → C.threshold ≤ 0 → ∀ (fuel : ℕ) (st : DiisSt n m),
      diisRun C dsize nearSing solveLin fuel st = .error .nonConvergence) ∧
    (∀ (n m : ℕ) (C : Ctx n m) (dsize : ℕ)
      (solveLin : List (List ℚ) → List ℚ → Option (List ℚ)),
      (∀ x, 0 ≤ C.sqrtF x) → C.threshold ≤ 0 → ∀ (fuel : ℕ) (st : Diis2St n),
      ∃ e, diis2Run C dsize solveLin fuel st = .error e) ∧
    (∀ (n m : ℕ) (C : Ctx n m)
      (solveLin : (Fin n → Fin n → ℚ) → (Fin n → ℚ) → Option (Fin n → ℚ)),
      (∀ x, 0 ≤ C.sqrtF x) → C.threshold ≤ 0 →
      ∀ (fuel : ℕ) (ps : Fin n → ℚ) oldpro,
      ∃ e, newtonRun C solveLin fuel ps oldpro = .error e) ∧
    (∀ (n m : ℕ) (C : Ctx n m), (∀ x, 0 ≤ C.sqrtF x) → C.threshold ≤ 0 →
      ∀ (fuel : ℕ) (ps : Fin n → ℚ) oldpro,
      plusLisa1Run C fuel ps oldpro = .error .typeErr) ∧
    (∀ (m : ℕ) (pi : ℚ) (expF sqrtF : ℚ → ℚ) (points weights rho : Fin m → ℚ)
      (threshold cutoff : ℚ) (checkOk : List ℚ → (Fin m → ℚ) → Bool),
      (∀ x, 0 ≤ sqrtF x) → threshold ≤ 0 →
      ∀ (fuel : ℕ) (ps : List ℚ) (oldpro : Option (Fin m → ℚ)),
      ∃ psf, mbisRun pi expF sqrtF points weights rho threshold cutoff checkOk
        fuel ps oldpro = .ok (false, psf)) := by
  refine ⟨?_, ?_, ?_, ?_, ?_, ?_, ?_⟩
  · intro n m C hpi hw hrho hbs hs ht fuel ps hps oldpro
    exact scRun_nonConv C hpi hw hrho hbs hs ht fuel ps hps oldpro
  · intro n m C p0 hs ht fuel ps oldpro
    exact dampRun_nonConv C p0 hs ht fuel ps oldpro
  · intro n m C dsize nearSing solveLin hs ht fuel st
    exact diisRun_nonConv C dsize nearSing solveLin hs ht fuel st
  · intro n m C dsize solveLin hs ht fuel st
    exact diis2Run_nonConv C dsize solveLin hs ht fuel st
  · intro n m C solveLin hs ht fuel ps oldpro
    exact newtonRun_nonConv C solveLin hs ht fuel ps oldpro
  · intro n m C hs ht fuel ps oldpro
    exact plusLisa1Run_nonConv C hs ht fuel ps oldpro
  · intro m pi expF sqrtF points weights rho threshold cutoff checkOk hs ht
      fuel ps oldpro
    exact mbisRun_nonConv pi expF sqrtF points weights rho threshold cutoff
      checkOk hs ht fuel ps oldpro

/-- C2 counterexample: the real `_opt_mbis_propars` (cap 2000, here with a
threshold of 0 that the non-negative convergence measure can never beat)
exhausts its cap and RETURNS its last iterate flagged unconverged - it
does not raise. -/
theorem C2_cap_behavior_cex :
    opt_mbis_propars 3 (fun _ => 1) (fun _ => 0) (fun _ : Fin 1 => 1)
      (fun _ => 1) (fun _ => 0) 0 (fun _ _ => true) [0, 0] =
      .ok (false, [0, 0]) := by
  have hstat : mbisUpdate 3 (fun _ => 1) (fun _ : Fin 1 => 1) (fun _ => 1)
      (fun _ => 0) (1 / 10 ^ 15) [0, 0] = [0, 0] := by
    norm_num [mbisUpdate, mbisM0, mbisM1, mbisTerm, mbisPro, mbisQuot, mbisWf,
      List.range_succ, Fin.sum_univ_one, Finset.sum_range_succ]
  have h := mbisRun_stationary 3 (fun _ => 1) (fun _ => 0) (fun _ : Fin 1 => 1)
    (fun _ => 1) (fun _ => 0) 0 (1 / 10 ^ 15) (fun _ _ => true) [0, 0] hstat
    (fun x => le_refl 0) (le_refl 0) 2000 none
  unfold opt_mbis_propars
  rw [if_pos (by norm_num)]
  exact h

/-- C2 witness: concrete never-converging runs of all seven variants with
the behaviors given by the claim theorem. -/
theorem C2_cap_behavior_witness :
    scRun exCtxZ 5 (fun _ => 1) none = .error .nonConvergence ∧
    dampRun exCtxZ (fun _ => 1) 5 (fun _ => 1) none = .error .nonConvergence ∧
    diisRun exCtxZ 8 (fun _ => false) (fun _ _ => none) 5
      ⟨0, fun _ => 1, none, [], [], [], false⟩ = .error .nonConvergence ∧
    (∃ e, diis2Run exCtxZ 8 (fun _ _ => none) 5 ⟨0, fun _ => 1, [], []⟩ =
      .error e) ∧
    (∃ e, newtonRun exCtxZ (fun _ _ => none) 5 (fun _ => 1) none = .error e) ∧
    plusLisa1Run exCtxZ 5 (fun _ => 1) none = .error .typeErr ∧
    (∃ psf, mbisRun 3 (fun _ => 1) (fun _ => 0) (fun _ : Fin 1 => 1)
      (fun _ => 1) (fun _ => 0) 0 (1 / 10 ^ 15) (fun _ _ => true) 5 [0, 0]
      none = .ok (false, psf)) := by
  refine ⟨?_, ?_, ?_, ?_, ?_, ?_, ?_⟩
  · exact C2_cap_behavior.1 1 1 exCtxZ (by norm_num [exCtxZ])
      (fun p => by norm_num [exCtxZ]) (fun p => by norm_num [exCtxZ])
      (fun k p => by norm_num [exCtxZ]) (fun x => le_refl 0) (le_refl 0)
      5 (fun _ => 1) (fun k => by norm_num) none
  · exact C2_cap_behavior.2.1 1 1 exCtxZ (fun _ => 1) (fun x => le_refl 0)
      (le_refl 0) 5 (fun _ => 1) none
  · exact C2_cap_behavior.2.2.1 1 1 exCtxZ 8 (fun _ => false) (fun _ _ => none)
      (fun x => le_refl 0) (le_refl 0) 5 ⟨0, fun _ => 1, none, [], [], [], false⟩
  · exact C2_cap_behavior.2.2.2.1 1 1 exCtxZ 8 (fun _ _ => none)
      (fun x => le_refl 0) (le_refl 0) 5 ⟨0, fun _ => 1, [], []⟩
  · exact C2_cap_behavior.2.2.2.2.1 1 1 exCtxZ (fun _ _ => none)
      (fun x => le_refl 0) (le_refl 0) 5 (fun _ => 1) none
  · exact C2_cap_behavior.2.2.2.2.2.1 1 1 exCtxZ (fun x => le_refl 0)
      (le_refl 0) 5 (fun _ => 1) none
  · exact C2_cap_behavior.2.2.2.2.2.2 1 3 (fun _ => 1) (fun _ => 0)
      (fun _ : Fin 1 => 1) (fun _ => 1) (fun _ => 0) 0 (1 / 10 ^ 15)
      (fun _ _ => true) (fun x => le_refl 0) (le_refl 0) 5 [0, 0] none


/-- C6: the Newton solver raises whenever `scipy.linalg.solve` meets a
singular Jacobian (no try/except: the `LinAlgError` is fatal), raises
whenever a Newton step leaves amplitudes below `-1e-10`, and never
returns such amplitudes: every run started as the source starts it
(`oldpro = None`, threshold at most the `1e100` first-iteration sentinel)
that returns, returns amplitudes all at least `-1e-10`. -/
theorem C6_newton_fatal :
    (∀ (n m : ℕ) (C : Ctx n m)
      (solveLin : (Fin n → Fin n → ℚ) → (Fin n → ℚ) → Option (Fin n → ℚ)),
      C.threshold ≤ big100 → ∀ (fuel : ℕ) (ps psf : Fin n → ℚ),
      newtonRun C solveLin fuel ps none = .ok psf → ∀ k, negTol ≤ psf k) ∧
    (∀ (n m : ℕ) (C : Ctx n m)
      (solveLin : (Fin n → Fin n → ℚ) → (Fin n → ℚ) → Option (Fin n → ℚ))
      (fuel : ℕ) (ps : Fin n → ℚ) (oldpro : Option (Fin m → ℚ)),
      (∀ k p, negTol5 ≤ ps k * C.bsF k p) → (∀ p, negTol ≤ proRaw C ps p) →
      ¬ changeOf C oldpro (clipPro C ps) < C.threshold →
      solveLin (newtonGrad C ps) (fun k => -(newtonH C ps k)) = none →
      newtonRun C solveLin (fuel + 1) ps oldpro = .error .singular) ∧
    (∀ (n m : ℕ) (C : Ctx n m)
      (solveLin : (Fin n → Fin n → ℚ) → (Fin n → ℚ) → Option (Fin n → ℚ))
      (fuel : ℕ) (ps delta : Fin n → ℚ) (oldpro : Option (Fin m → ℚ)),
      (∀ k p, negTol5 ≤ ps k * C.bsF k p) → (∀ p, negTol ≤ proRaw C ps p) →
      ¬ changeOf C oldpro (clipPro C ps) < C.threshold →
      solveLin (newtonGrad C ps) (fun k => -(newtonH C ps k)) = some delta →
      ¬ (∀ k, negTol ≤ ps k + delta k) →
      newtonRun C solveLin (fuel + 1) ps oldpro = .error .negative) := by
  refine ⟨?_, ?_, ?_⟩
  · intro n m C solveLin ht fuel ps psf h
    exact newtonRun_nonneg C solveLin ht fuel ps psf h
  · intro n m C solveLin fuel ps oldpro hsh hpr hcv hsl
    simp only [newtonRun]
    rw [if_neg (not_not_intro hsh), if_neg (not_not_intro hpr), if_neg hcv, hsl]
  · intro n m C solveLin fuel ps delta oldpro hsh hpr hcv hsl hneg
    simp only [newtonRun]
    rw [if_neg (not_not_intro hsh), if_neg (not_not_intro hpr), if_neg hcv, hsl]
    dsimp only
    rw [if_pos hneg]

/-- C6 witness: a concrete Newton run converges with non-negative output;
a concrete singular solve raises; a concrete step into negative
amplitudes raises. -/
theorem C6_newton_fatal_witness :
    (exCtxB.threshold ≤ big100 ∧
      newtonRun exCtxB (fun _ _ => some (fun _ => 11 / 12)) 3 (fun _ => 1)
        none = .ok (fun _ => 23 / 12) ∧
      (∀ k : Fin 1, negTol ≤ (fun _ : Fin 1 => (23 : ℚ) / 12) k)) ∧
    newtonRun exCtxZ (fun _ _ => none) 4 (fun _ => 1) none =
      .error .singular ∧
    newtonRun exCtxZ (fun _ _ => some (fun _ => -2)) 4 (fun _ => 1) none =
      .error .negative := by
  have hrun : newtonRun exCtxB (fun _ _ => some (fun _ => 11 / 12)) 3
      (fun _ => 1) none = .ok (fun _ => 23 / 12) := by
    norm_num [newtonRun, newtonGrad, newtonH, intW, exCtxB, rint2, rint3, wf,
      rc, clipPro, proRaw, changeOf, changeQ, qsmall, rbig, big100, negTol,
      negTol5, Fin.sum_univ_one, Fin.forall_fin_one, funext_iff]
  refine ⟨⟨le_refl _, hrun, ?_⟩, ?_, ?_⟩
  · exact C6_newton_fatal.1 1 1 exCtxB (fun _ _ => some (fun _ => 11 / 12))
      (le_refl _) 3 (fun _ => 1) (fun _ => 23 / 12) hrun
  · exact C6_newton_fatal.2.1 1 1 exCtxZ (fun _ _ => none) 3 (fun _ => 1) none
      (fun k p => by norm_num [exCtxZ, negTol5])
      (fun p => by norm_num [exCtxZ, proRaw, qsmall, Fin.sum_univ_one, negTol])
      (by norm_num [exCtxZ, changeOf, big100])
      rfl
  · exact C6_newton_fatal.2.2 1 1 exCtxZ (fun _ _ => some (fun _ => -2)) 3
      (fun _ => 1) (fun _ => -2) none
      (fun k p => by norm_num [exCtxZ, negTol5])
      (fun p => by norm_num [exCtxZ, proRaw, qsmall, Fin.sum_univ_one, negTol])
      (by norm_num [exCtxZ, changeOf, big100])
      rfl
      (by norm_num [negTol, Fin.forall_fin_one])


/-- C5: the claim states that EVERY DIIS variant degrades gracefully on a
singular or near-singular Pulay matrix.  That holds for the density-space
variant `opt_propars_fixed_points_diis`: when its `eigvals` test detects
linear dependence, or when `solve` raises `LinAlgError`, the iteration
turns DIIS off and applies the plain SC fixed-point update (which equals
`scUpd`) and continues.  The amplitude-space variant
`opt_propars_fixed_points_diis2` does NOT guard its Pulay solve: a
`LinAlgError` propagates as a fatal error (see the counterexample). -/
theorem C5_diis_degradation :
    (∀ (n m : ℕ) (C : Ctx n m) (dsize : ℕ) (nearSing : List (List ℚ) → Bool)
      (solveLin : List (List ℚ) → List ℚ → Option (List ℚ)) (st : DiisSt n m),
      st.off = false → dsize ≤ st.irep →
      ¬ C.sqrtF (rint3 C (wf C) (diisResid C st) (diisResid C st)) <
        C.threshold →
      nearSing (buildB (lastN dsize (st.hD ++ [diisResid C st]))) = true →
      diisBody C dsize nearSing solveLin st = .ok (.inr
        ⟨st.irep + 1,
         diisPsUpd C (fun k p => st.ps k * C.bsF k p) (clipPro C st.ps),
         some (clipPro C st.ps),
         st.hS ++ [fun k p => st.ps k * C.bsF k p],
         st.hP ++ [clipPro C st.ps],
         st.hD ++ [diisResid C st],
         true⟩)) ∧
    (∀ (n m : ℕ) (C : Ctx n m) (dsize : ℕ) (nearSing : List (List ℚ) → Bool)
      (solveLin : List (List ℚ) → List ℚ → Option (List ℚ)) (st : DiisSt n m),
      st.off = false → dsize ≤ st.irep →
      ¬ C.sqrtF (rint3 C (wf C) (diisResid C st) (diisResid C st)) <
        C.threshold →
      nearSing (buildB (lastN dsize (st.hD ++ [diisResid C st]))) = false →
      solveLin (buildB (lastN dsize (st.hD ++ [diisResid C st])))
        (rhsVec (lastN dsize (st.hD ++ [diisResid C st])).length) = none →
      diisBody C dsize nearSing solveLin st = .ok (.inr
        ⟨st.irep + 1,
         diisPsUpd C (fun k p => st.ps k * C.bsF k p) (clipPro C st.ps),
         some (clipPro C st.ps),
         st.hS ++ [fun k p => st.ps k * C.bsF k p],
         st.hP ++ [clipPro C st.ps],
         st.hD ++ [diisResid C st],
         true⟩)) ∧
    (∀ (n m : ℕ) (C : Ctx n m) (ps : Fin n → ℚ) (k : Fin n),
      diisPsUpd C (fun k p => ps k * C.bsF k p) (clipPro C ps) k =
        scUpd C ps k) ∧
    (∀ (n m : ℕ) (C : Ctx n m) (dsize : ℕ)
      (solveLin : List (List ℚ) → List ℚ → Option (List ℚ)) (st : Diis2St n),
      dsize + 1 ≤ st.irep →
      ¬ C.sqrtF (∑ k, (st.ps k - diisPsUpd C (fun k p => st.ps k * C.bsF k p)
          (clipPro C st.ps) k) * (st.ps k - diisPsUpd C
          (fun k p => st.ps k * C.bsF k p) (clipPro C st.ps) k)) <
        C.threshold →
      solveLin (buildB2 (lastN dsize (st.hD ++ [fun k => st.ps k -
          diisPsUpd C (fun k p => st.ps k * C.bsF k p) (clipPro C st.ps) k])))
        (rhsVec (lastN dsize (st.hD ++ [fun k => st.ps k -
          diisPsUpd C (fun k p => st.ps k * C.bsF k p)
            (clipPro C st.ps) k])).length) = none →
      diis2Body C dsize solveLin st = .error .singular) := by
  refine ⟨?_, ?_, ?_, ?_⟩
  · intro n m C dsize nearSing solveLin st hoff hirep hdr hns
    simp only [diisBody]
    rw [if_neg hdr, if_pos (And.intro hoff hirep), if_pos hns]
  · intro n m C dsize nearSing solveLin st hoff hirep hdr hns hsl
    simp only [diisBody]
    rw [if_neg hdr, if_pos (And.intro hoff hirep), hns]
    simp only [Bool.false_eq_true, if_false]
    rw [hsl]
  · intro n m C ps k
    unfold diisPsUpd scUpd rint2
    refine Finset.sum_congr rfl fun p _ => ?_
    ring
  · intro n m C dsize solveLin st hact hdr hsl
    have h1 : 1 ≤ st.irep := le_trans (by omega) hact
    simp only [diis2Body]
    rw [if_neg hdr, if_pos h1, if_pos h1, if_pos hact, hsl]

/-- C5 counterexample: a concrete run of `opt_propars_fixed_points_diis2`
(window 2, `scipy.linalg.solve` modelled by exact Gaussian elimination)
reaches an exactly singular Pulay matrix - the residuals repeat - and
dies with the linear-algebra error instead of degrading to plain SC. -/
theorem C5_diis_degradation_cex :
    opt_propars_fixed_points_diis2 exCtxZ 2 gaussSolve (fun _ => 1) =
      .error .singular := by
  have hZ : ∀ x : ℚ, ¬ exCtxZ.sqrtF x < exCtxZ.threshold := by
    intro x
    norm_num [exCtxZ]
  have hb0 : diis2Body exCtxZ 2 gaussSolve ⟨0, fun _ => 1, [], []⟩ =
      .ok (.inr ⟨1, fun _ => 12, [], []⟩) := by
    simp only [diis2Body]
    rw [if_neg (hZ _)]
    norm_num [diisPsUpd, exCtxZ, clipPro, proRaw, wf, rc, qsmall, rbig, negTol,
      Fin.sum_univ_one, Fin.forall_fin_one, funext_iff]
  have hb1 : diis2Body exCtxZ 2 gaussSolve ⟨1, fun _ => 12, [], []⟩ =
      .ok (.inr ⟨2, fun _ => 12, [fun _ => 12], [fun _ => 0]⟩) := by
    simp only [diis2Body]
    rw [if_neg (hZ _)]
    norm_num [diisPsUpd, exCtxZ, clipPro, proRaw, wf, rc, qsmall, rbig, negTol,
      Fin.sum_univ_one, Fin.forall_fin_one, funext_iff]
  have hb2 : diis2Body exCtxZ 2 gaussSolve
      ⟨2, fun _ => 12, [fun _ => 12], [fun _ => 0]⟩ =
      .ok (.inr ⟨3, fun _ => 12, [fun _ => 12, fun _ => 12],
        [fun _ => 0, fun _ => 0]⟩) := by
    simp only [diis2Body]
    rw [if_neg (hZ _)]
    norm_num [diisPsUpd, exCtxZ, clipPro, proRaw, wf, rc, qsmall, rbig, negTol,
      Fin.sum_univ_one, Fin.forall_fin_one, funext_iff]
  have hb3 : diis2Body exCtxZ 2 gaussSolve
      ⟨3, fun _ => 12, [fun _ => 12, fun _ => 12], [fun _ => 0, fun _ => 0]⟩ =
      .error .singular := by
    simp only [diis2Body]
    rw [if_neg (hZ _)]
    norm_num [gaussSolve, gaussForward, pivotRow, elimStep, backSolveAux,
      buildB2, dotv, lastN, rhsVec, diisPsUpd, exCtxZ, clipPro, proRaw, wf,
      rc, qsmall, rbig, Fin.sum_univ_one, List.range_succ, List.replicate,
      List.getD_cons_zero, List.getD_cons_succ, List.getElem?_cons_zero,
      List.getElem?_cons_succ]
  unfold opt_propars_fixed_points_diis2
  simp only [diis2Run, hb0, hb1, hb2, hb3]

/-- C5 witness: concrete DIIS states at which the detection and the
solve-failure paths both degrade to the plain SC update, and a concrete
DIIS2 state at which a failed solve is fatal, all through the claim
theorem. -/
theorem C5_diis_degradation_witness :
    (diisBody exCtxZ 1 (fun _ => true) (fun _ _ => none)
        ⟨1, fun _ => 1, some (fun _ => 1), [], [], [], false⟩ = .ok (.inr
        ⟨2, diisPsUpd exCtxZ (fun k p => (fun _ => (1:ℚ)) k * exCtxZ.bsF k p)
          (clipPro exCtxZ (fun _ => 1)),
         some (clipPro exCtxZ (fun _ => 1)),
         [fun k p => (fun _ => (1:ℚ)) k * exCtxZ.bsF k p],
         [clipPro exCtxZ (fun _ => 1)],
         [diisResid exCtxZ ⟨1, fun _ => 1, some (fun _ => 1), [], [], [],
           false⟩],
         true⟩)) ∧
    (diisBody exCtxZ 1 (fun _ => false) (fun _ _ => none)
        ⟨1, fun _ => 1, some (fun _ => 1), [], [], [], false⟩ = .ok (.inr
        ⟨2, diisPsUpd exCtxZ (fun k p => (fun _ => (1:ℚ)) k * exCtxZ.bsF k p)
          (clipPro exCtxZ (fun _ => 1)),
         some (clipPro exCtxZ (fun _ => 1)),
         [fun k p => (fun _ => (1:ℚ)) k * exCtxZ.bsF k p],
         [clipPro exCtxZ (fun _ => 1)],
         [diisResid exCtxZ ⟨1, fun _ => 1, some (fun _ => 1), [], [], [],
           false⟩],
         true⟩)) ∧
    diis2Body exCtxZ 1 (fun _ _ => none) ⟨2, fun _ => 1, [], []⟩ =
      .error .singular := by
  refine ⟨?_, ?_, ?_⟩
  · have h := C5_diis_degradation.1 1 1 exCtxZ 1 (fun _ => true)
      (fun _ _ => none) ⟨1, fun _ => 1, some (fun _ => 1), [], [], [], false⟩
      rfl (le_refl 1) (by norm_num [exCtxZ]) rfl
    simpa using h
  · have h := C5_diis_degradation.2.1 1 1 exCtxZ 1 (fun _ => false)
      (fun _ _ => none) ⟨1, fun _ => 1, some (fun _ => 1), [], [], [], false⟩
      rfl (le_refl 1) (by norm_num [exCtxZ]) rfl rfl
    simpa using h
  · have h := C5_diis_degradation.2.2.2 1 1 exCtxZ 1 (fun _ _ => none)
      ⟨2, fun _ => 1, [], []⟩ (le_refl 2) (by norm_num [exCtxZ]) rfl
    simpa using h

end HortonPart
